import Mathlib

/-!
# Verification of a BitTorrent leecher core

A shallow embedding, in Lean, of the components of a Go BitTorrent client that
the specification's claims are about:

* the SHA-1 hash (`crypto/sha1`, used through `metainfo.HashPiece`),
* the bencode decoder (`internal/bencode/decode.go`),
* the metainfo `Info` serializer and parser (`serializeInfo`, `newInfo`,
  `getInfoHash`),
* the peer session (`ReadMessage`, `getBlocks`, `GetPiece`, `HasPiece` from
  `internal/peer/peer.go`),
* the download worker and coordinator (`downloadLoop`,
  `downloadPieceWithRetry` from `internal/downloader/worker.go`; `Download`,
  `collectResults`, `validatePieces` from `internal/downloader/downloader.go`),
* the magnet URI parser (`DeserializeMagnet` from
  `internal/metainfo/magnet.go`).

Bytes are modelled as `Nat` (values < 256 where the code produces them), byte
strings as `List Nat`.  Go functions that index into a buffer are modelled on
the suffix of the buffer from that index (the Go `(value, nextIndex)` decoder
contract becomes `(value, remaining bytes)`).  Loops whose termination is not
structural are given explicit fuel, always called with enough fuel for the
loop's actual bound; all definitions are executable so that concrete runs can
be checked by `decide`.  Failure (a returned Go `error`, or a Go panic such as
an out-of-range slice) is modelled as `Option.none`.
-/

set_option maxRecDepth 8192

namespace BT

/-! ## SHA-1 (`crypto/sha1`, reached via `metainfo.HashPiece`)

A faithful executable SHA-1 over byte lists, FIPS 180-1: padding, message
schedule, 80 rounds.  Words are `Nat` reduced mod `2^32`. -/

/-- Truncate to a 32-bit word. -/
def w32 (x : Nat) : Nat := x % 4294967296

/-- Rotate a 32-bit word left by `n` bits (`0 < n < 32`). -/
def rotl32 (n x : Nat) : Nat := w32 ((x <<< n) ||| (x >>> (32 - n)))

/-- Big-endian 4-byte encoding of a 32-bit word. -/
def be32 (x : Nat) : List Nat :=
  [x / 16777216 % 256, x / 65536 % 256, x / 256 % 256, x % 256]

/-- Big-endian 8-byte encoding of a 64-bit value (the SHA-1 length field). -/
def be64 (x : Nat) : List Nat :=
  [x / 72057594037927936 % 256, x / 281474976710656 % 256,
   x / 1099511627776 % 256, x / 4294967296 % 256,
   x / 16777216 % 256, x / 65536 % 256, x / 256 % 256, x % 256]

/-- SHA-1 padding: a `0x80` byte, zeros to 56 mod 64, then the bit length. -/
def sha1Pad (msg : List Nat) : List Nat :=
  msg ++ 128 :: List.replicate ((119 - msg.length % 64) % 64) 0
      ++ be64 (8 * msg.length)

/-- Group bytes into big-endian 32-bit words (4 bytes each). -/
def toWords : List Nat → List Nat
  | a :: b :: c :: d :: rest => (((a * 256 + b) * 256 + c) * 256 + d) :: toWords rest
  | _ => []

/-- Extend 16 words to the 80-word SHA-1 message schedule. -/
def sha1Extend (w : Array Nat) : Array Nat :=
  (List.range 64).foldl
    (fun w _ =>
      w.push (rotl32 1 ((w.getD (w.size - 3) 0) ^^^ (w.getD (w.size - 8) 0) ^^^
                        (w.getD (w.size - 14) 0) ^^^ (w.getD (w.size - 16) 0))))
    w

/-- One SHA-1 round: round index `t`, schedule word `wt`. -/
def sha1Round (st : Nat × Nat × Nat × Nat × Nat) (t wt : Nat) :
    Nat × Nat × Nat × Nat × Nat :=
  match st with
  | (a, b, c, d, e) =>
    let f :=
      if t < 20 then (b &&& c) ||| ((b ^^^ 4294967295) &&& d)
      else if t < 40 then b ^^^ c ^^^ d
      else if t < 60 then (b &&& c) ||| (b &&& d) ||| (c &&& d)
      else b ^^^ c ^^^ d
    let k :=
      if t < 20 then 1518500249
      else if t < 40 then 1859775393
      else if t < 60 then 2400959708
      else 3395469782
    (w32 (rotl32 5 a + f + e + k + wt), a, rotl32 30 b, c, d)

/-- Compress one 64-byte block into the running state. -/
def sha1Block (h : Nat × Nat × Nat × Nat × Nat) (block : List Nat) :
    Nat × Nat × Nat × Nat × Nat :=
  let w := sha1Extend (Array.mk (toWords block))
  match (List.range 80).foldl (fun st t => sha1Round st t (w.getD t 0)) h with
  | (a, b, c, d, e) =>
    match h with
    | (h0, h1, h2, h3, h4) =>
      (w32 (h0 + a), w32 (h1 + b), w32 (h2 + c), w32 (h3 + d), w32 (h4 + e))

/-- SHA-1 of a byte list, as the 20-byte digest.  This is
`metainfo.HashPiece` (`internal/metainfo/hash.go`): it hashes its argument
with `crypto/sha1` and returns the digest bytes. -/
def hashPiece (piece : List Nat) : List Nat :=
  let padded := sha1Pad piece
  match (List.range (padded.length / 64)).foldl
      (fun h i => sha1Block h ((padded.drop (64 * i)).take 64))
      (1732584193, 4023233417, 2562383102, 271733878, 3285377520) with
  | (h0, h1, h2, h3, h4) => be32 h0 ++ be32 h1 ++ be32 h2 ++ be32 h3 ++ be32 h4

/-! ## UTF-8 validity (`unicode/utf8.Valid`)

The decoder presents a byte string as Go `string` when its bytes are valid
UTF-8 and as raw `[]byte` otherwise.  This is Go's `utf8.Valid`: ASCII bytes
stand alone, `C2..DF` start 2-byte sequences, `E0..EF` 3-byte, `F0..F4`
4-byte, with the first continuation byte range restricted for `E0`, `ED`,
`F0`, `F4` (no overlongs, no surrogates, max `U+10FFFF`). -/

/-- A UTF-8 continuation byte, `80..BF`. -/
def isCont (b : Nat) : Bool := 128 ≤ b && b ≤ 191

/-- Go `utf8.Valid` on a byte list. -/
def validUTF8 : List Nat → Bool
  | [] => true
  | b :: rest =>
    if b ≤ 127 then validUTF8 rest
    else if 194 ≤ b && b ≤ 223 then
      match rest with
      | b1 :: r => isCont b1 && validUTF8 r
      | [] => false
    else if 224 ≤ b && b ≤ 239 then
      match rest with
      | b1 :: b2 :: r =>
        (if b = 224 then 160 ≤ b1 && b1 ≤ 191
         else if b = 237 then 128 ≤ b1 && b1 ≤ 159
         else isCont b1) && isCont b2 && validUTF8 r
      | _ => false
    else if 240 ≤ b && b ≤ 244 then
      match rest with
      | b1 :: b2 :: b3 :: r =>
        (if b = 240 then 144 ≤ b1 && b1 ≤ 191
         else if b = 244 then 128 ≤ b1 && b1 ≤ 143
         else isCont b1) && isCont b2 && isCont b3 && validUTF8 r
      | _ => false
    else false

/-! ## Bencode decoder (`internal/bencode/decode.go`)

The Go decoder returns `interface{}` values: `int`, `string` (byte strings
whose bytes are valid UTF-8), `[]byte` (other byte strings), `[]interface{}`,
or `map[string]interface{}`.  `BVal` is that tagged value tree.  A Go map is
modelled as an association list with insert-or-replace semantics; the claims
only ever observe it through key lookup, which matches map semantics.

Go's `DecodeAt(bencoded, index)` works on an index into the full buffer and
returns the value plus the next index; here each function consumes the suffix
of the buffer from that index and returns the value plus the remaining
suffix.  A decode error, and likewise a Go panic (out-of-range index or
slice), is `none`. -/

/-- The tagged bencode value tree (Go `interface{}` results). -/
inductive BVal where
  | int : Int → BVal
  | str : List Nat → BVal
  | bytes : List Nat → BVal
  | list : List BVal → BVal
  | dict : List (List Nat × BVal) → BVal

/-- Insert-or-replace for the Go map `decodedDict[string(key)] = val`. -/
def mapInsert (k : List Nat) (v : BVal) :
    List (List Nat × BVal) → List (List Nat × BVal)
  | [] => [(k, v)]
  | (k1, v1) :: rest =>
    if k1 = k then (k, v) :: rest else (k1, v1) :: mapInsert k v rest

/-- Go map lookup `m[key]` (with presence flag): `none` when absent. -/
def mapLookup (k : List Nat) : List (List Nat × BVal) → Option BVal
  | [] => none
  | (k1, v1) :: rest => if k1 = k then some v1 else mapLookup k rest

/-- Split at the first `':'` (byte 58): Go `decodeString`'s scan for
`firstColonIndex`.  `none` when there is no colon (in Go either an
out-of-range slice panic or an `Atoi("")` failure, both decode failures). -/
def splitAtColon : List Nat → Option (List Nat × List Nat)
  | [] => none
  | c :: rest =>
    if c = 58 then some ([], rest)
    else (splitAtColon rest).map (fun p => (c :: p.1, p.2))

/-- Split at the first `'e'` (byte 101): Go `decodeInt`'s scan for the
terminator.  `none` when there is no `'e'` (a Go out-of-range panic). -/
def splitAtE : List Nat → Option (List Nat × List Nat)
  | [] => none
  | c :: rest =>
    if c = 101 then some ([], rest)
    else (splitAtE rest).map (fun p => (c :: p.1, p.2))

/-- ASCII decimal digits to their value; `none` on a non-digit.  The
accumulator form of the digit loop inside Go `strconv.Atoi`. -/
def digitsValAux : List Nat → Nat → Option Nat
  | [], acc => some acc
  | c :: rest, acc =>
    if 48 ≤ c ∧ c ≤ 57 then digitsValAux rest (10 * acc + (c - 48)) else none

/-- Value of a non-empty all-digit string; `none` otherwise. -/
def digitsVal (s : List Nat) : Option Nat :=
  match s with
  | [] => none
  | _ => digitsValAux s 0

/-- Go `strconv.Atoi`: optional sign, then a non-empty digit string.
(Go's 64-bit overflow error is not modelled; no claim exercises it.) -/
def goAtoi (s : List Nat) : Option Int :=
  match s with
  | [] => none
  | c :: rest =>
    if c = 43 then (digitsVal rest).map Int.ofNat
    else if c = 45 then (digitsVal rest).map (fun n => -(Int.ofNat n))
    else (digitsVal (c :: rest)).map Int.ofNat

/-- Go `decodeString` on the suffix from `index`: scan to the first colon,
`Atoi` the prefix as the length, slice out that many bytes.  A negative
length or too few remaining bytes is a Go slice panic, so `none`. -/
def decodeStringS (b : List Nat) : Option (List Nat × List Nat) :=
  match splitAtColon b with
  | none => none
  | some (lenStr, rest) =>
    match goAtoi lenStr with
    | none => none
    | some len =>
      if len < 0 then none
      else if rest.length < len.toNat then none
      else some (rest.take len.toNat, rest.drop len.toNat)

/-- Go `decodeInt` on the suffix from `index`: the suffix starts with the
`'i'` the dispatcher saw; scan to the first `'e'` after it, reject a leading
zero on a multi-character number and the literal `-0`, then `Atoi`. -/
def decodeIntS (b : List Nat) : Option (Int × List Nat) :=
  match b with
  | [] => none
  | c :: rest =>
    if c = 105 then
      match splitAtE rest with
      | none => none
      | some (numStr, after) =>
        if 1 < numStr.length ∧ numStr.headD 0 = 48 then none
        else if numStr = [45, 48] then none
        else
          match goAtoi numStr with
          | none => none
          | some n => some (n, after)
    else none

mutual

/-- Go `DecodeAt`: dispatch on the identifier byte.  A byte-string result
whose bytes are valid UTF-8 is presented as a Go `string` (`BVal.str`),
otherwise as raw bytes (`BVal.bytes`).  `fuel` bounds the recursion; every
call site supplies enough fuel for the input. -/
def decodeS : Nat → List Nat → Option (BVal × List Nat)
  | 0, _ => none
  | fuel + 1, b =>
    match b with
    | [] => none
    | c :: rest =>
      if 48 ≤ c ∧ c ≤ 57 then
        (decodeStringS (c :: rest)).map
          (fun p => (if validUTF8 p.1 then BVal.str p.1 else BVal.bytes p.1, p.2))
      else if c = 105 then (decodeIntS (c :: rest)).map (fun p => (BVal.int p.1, p.2))
      else if c = 108 then decodeItemsS fuel rest []
      else if c = 100 then decodePairsS fuel rest []
      else none

/-- Go `decodeList`'s element loop (after the `'l'`): elements accumulate in
`acc` until the closing `'e'`. -/
def decodeItemsS : Nat → List Nat → List BVal → Option (BVal × List Nat)
  | 0, _, _ => none
  | fuel + 1, b, acc =>
    match b with
    | [] => none
    | c :: rest =>
      if c = 101 then some (BVal.list acc, rest)
      else
        match decodeS fuel (c :: rest) with
        | none => none
        | some (v, rest1) => decodeItemsS fuel rest1 (acc ++ [v])

/-- Go `decodeDict`'s pair loop (after the `'d'`): a byte-string key then a
value, inserted into the map, until the closing `'e'`. -/
def decodePairsS : Nat → List Nat → List (List Nat × BVal) → Option (BVal × List Nat)
  | 0, _, _ => none
  | fuel + 1, b, acc =>
    match b with
    | [] => none
    | c :: rest =>
      if c = 101 then some (BVal.dict acc, rest)
      else
        match decodeStringS (c :: rest) with
        | none => none
        | some (k, rest1) =>
          match decodeS fuel rest1 with
          | none => none
          | some (v, rest2) => decodePairsS fuel rest2 (mapInsert k v acc)

end

/-- Go `bencode.Decode`: decode from the start of the buffer and drop the
consumed count.  The fuel `b.length + 1` is enough for any input: every
recursive call consumes at least one byte. -/
def goDecode (b : List Nat) : Option BVal :=
  (decodeS (b.length + 1) b).map (fun p => p.1)

/-! ## Metainfo (`Info`, `serializeInfo`, `newInfo`, `getInfoHash`)

The `Info` struct holds the parsed `info` dictionary: `Length` (single-file
total, or the computed sum in multi-file mode), `Name`, `PieceLength`,
`Pieces` (raw concatenated 20-byte piece hashes) and `Files` (empty in
single-file mode).  The Go struct's cached `InfoHash` field is always set
from `getInfoHash`, modelled here as the function itself. -/

/-- ASCII digits of `n` (most significant first), empty for `0`; `fuel ≥ n`
makes the division loop total. -/
def natDigitsAux : Nat → Nat → List Nat
  | 0, _ => []
  | fuel + 1, n => if n = 0 then [] else natDigitsAux fuel (n / 10) ++ [48 + n % 10]

/-- Decimal ASCII representation of a natural number (Go `fmt` `%d`). -/
def natRepr (n : Nat) : List Nat := if n = 0 then [48] else natDigitsAux n n

/-- Decimal ASCII representation of an integer (Go `fmt` `%d`). -/
def intRepr (z : Int) : List Nat :=
  if z < 0 then 45 :: natRepr z.natAbs else natRepr z.toNat

/-- Bencode byte-string encoding `<len>:<bytes>` (Go `fmt` `%d:%s`). -/
def bstr (s : List Nat) : List Nat := natRepr s.length ++ 58 :: s

/-- Bencode integer encoding `i<decimal>e` (Go `fmt` `i%de`). -/
def intEnc (z : Int) : List Nat := 105 :: intRepr z ++ [101]

/-- The bytes of the key `length`. -/
def keyLength : List Nat := [108, 101, 110, 103, 116, 104]

/-- The bytes of the key `name`. -/
def keyName : List Nat := [110, 97, 109, 101]

/-- The bytes of the key `piece length` (with the space, 12 bytes). -/
def keyPieceLength : List Nat := [112, 105, 101, 99, 101, 32, 108, 101, 110, 103, 116, 104]

/-- The bytes of the key `pieces`. -/
def keyPieces : List Nat := [112, 105, 101, 99, 101, 115]

/-- The bytes of the key `files`. -/
def keyFiles : List Nat := [102, 105, 108, 101, 115]

/-- The bytes of the key `path`. -/
def keyPath : List Nat := [112, 97, 116, 104]

/-- One entry of `Info.Files`: a length and a relative path vector. -/
structure FileInfo where
  length : Int
  path : List (List Nat)
  deriving DecidableEq, Repr

/-- The parsed `info` dictionary. -/
structure Info where
  length : Int
  name : List Nat
  pieceLength : Int
  pieces : List Nat
  files : List FileInfo
  deriving DecidableEq, Repr

/-- Go `Info.IsSingleFile`: no `files` entries. -/
def isSingleFile (i : Info) : Bool := i.files.length == 0

/-- One file entry of the multi-file `serializeInfo` loop:
`d6:lengthi%de4:pathl<components>ee`. -/
def serializeFile (f : FileInfo) : List Nat :=
  100 :: (bstr keyLength ++ intEnc f.length ++ bstr keyPath
    ++ 108 :: (f.path.map bstr).flatten ++ [101, 101])

/-- Go `serializeInfo`: hand-rolled bencoding of the `Info` struct.
Single-file: `d 6:length i%de 4:name %d:%s 12:piece length i%de 6:pieces %d:
<pieces> e`.  Multi-file: `d 5:files l <file entries> e 4:name … e` (the
`length` field is not serialized in multi-file mode).  Keys are emitted in
the fixed (sorted) order of the Go source. -/
def serializeInfo (i : Info) : List Nat :=
  if isSingleFile i then
    100 :: (bstr keyLength ++ intEnc i.length ++ bstr keyName ++ bstr i.name
      ++ bstr keyPieceLength ++ intEnc i.pieceLength
      ++ bstr keyPieces ++ bstr i.pieces) ++ [101]
  else
    100 :: (bstr keyFiles ++ 108 :: (i.files.map serializeFile).flatten ++ [101]
      ++ bstr keyName ++ bstr i.name
      ++ bstr keyPieceLength ++ intEnc i.pieceLength
      ++ bstr keyPieces ++ bstr i.pieces) ++ [101]

/-- Path components of one file entry: every element must be a Go `string`
(the type assertion `component.(string)` in `parseFiles`). -/
def parsePath : List BVal → Option (List (List Nat))
  | [] => some []
  | BVal.str s :: rest => (parsePath rest).map (fun ps => s :: ps)
  | _ => none

/-- Go `parseFiles`: each element must be a map with an `int` `length` and a
list `path` of strings. -/
def parseFiles : List BVal → Option (List FileInfo)
  | [] => some []
  | BVal.dict fm :: rest =>
    match mapLookup keyLength fm, mapLookup keyPath fm with
    | some (BVal.int n), some (BVal.list pcs) => do
      let p ← parsePath pcs
      let fs ← parseFiles rest
      some (⟨n, p⟩ :: fs)
    | _, _ => none
  | _ => none

/-- The multi-file total: `info.Length` is the sum of the file lengths. -/
def sumFileLengths (fs : List FileInfo) : Int :=
  fs.foldl (fun a f => a + f.length) 0

/-- Go `newInfo`: typed extraction from the decoded dictionary.  `name` must
be a Go `string`, `piece length` an `int`, `pieces` a raw `[]byte` (a
`pieces` value whose bytes happen to be valid UTF-8 was presented as a
`string` by the decoder and fails the `[]byte` assertion).  Then either an
`int` `length` (single-file) or a `files` list (multi-file, summing the
lengths).  The dead `if !ok` after Go's if/else chain can never fire (its
`ok` is the one from the `pieces` assertion) and is not modelled. -/
def newInfo (m : List (List Nat × BVal)) : Option Info :=
  match mapLookup keyName m with
  | some (BVal.str name) =>
    match mapLookup keyPieceLength m with
    | some (BVal.int pl) =>
      match mapLookup keyPieces m with
      | some (BVal.bytes pieces) =>
        match mapLookup keyLength m with
        | some (BVal.int len) => some ⟨len, name, pl, pieces, []⟩
        | _ =>
          match mapLookup keyFiles m with
          | some (BVal.list fl) =>
            (parseFiles fl).map (fun fs => ⟨sumFileLengths fs, name, pl, pieces, fs⟩)
          | _ => none
      | _ => none
    | _ => none
  | _ => none

/-- Go `getInfoHash`: SHA-1 of `serializeInfo`. -/
def getInfoHash (i : Info) : List Nat := hashPiece (serializeInfo i)

/-- Successive 20-byte chunks; `fuel ≥ l.length` makes the slicing loop
total.  (Go's `pieceHashes` panics when the length is not a multiple of 20;
no claim exercises that case, and the model returns the short tail chunk.) -/
def chunk20Aux : Nat → List Nat → List (List Nat)
  | 0, _ => []
  | fuel + 1, l =>
    match l with
    | [] => []
    | _ => l.take 20 :: chunk20Aux fuel (l.drop 20)

/-- Go `Info.PieceHashes`: the pieces table split into 20-byte hashes. -/
def pieceHashesOf (i : Info) : List (List Nat) := chunk20Aux i.pieces.length i.pieces

/-- Well-formedness of an `Info` for the canonical round trip: the name (and
every path component) is a Go `string`, i.e. valid UTF-8, and the pieces
bytes are not valid UTF-8 (so the decoder keeps them as `[]byte`, as for any
real concatenation of SHA-1 digests). -/
def infoWF (i : Info) : Bool :=
  validUTF8 i.name && !(validUTF8 i.pieces)
    && i.files.all (fun f => f.path.all (fun p => validUTF8 p))

/-! ## Peer session (`internal/peer/peer.go`)

The TCP connection is modelled as the list of bytes the remote side will
deliver; reading consumes a prefix.  Outbound writes (requests, interested)
always succeed and are not part of the state the claims observe.

Protocol constants (from the repository's constants file): message ids
choke 0, unchoke 1, interested 2, bitfield 5, request 6, piece 7,
extension 20; `MaxPipelineRequests = 5`; `BlockSize = 16384`. -/

/-- A parsed peer-wire frame (Go `PeerMessage`): the 4-byte length prefix
value, the id byte, and the payload (`length − 1` bytes). -/
structure PeerMessage where
  length : Nat
  id : Nat
  payload : List Nat
  deriving DecidableEq, Repr

/-- Go `ReadMessage`: read a 4-byte big-endian length, read that many bytes,
take the first as the id and the rest as the payload.  The reader is backed
by the same buffer that is then filled, so for `length > 0` it sees the
filled bytes; for `length == 0` the buffer is empty and reading the id fails
with EOF, an error.  Too few stream bytes is a read error.  Returns the
frame and the unconsumed stream. -/
def readMessage (stream : List Nat) : Option (PeerMessage × List Nat) :=
  match stream with
  | a :: b :: c :: d :: rest =>
    let length := ((a * 256 + b) * 256 + c) * 256 + d
    if rest.length < length then none
    else
      match rest.take length with
      | [] => none
      | id :: payload => some (⟨length, id, payload⟩, rest.drop length)
  | _ => none

/-- The wire encoding of a frame with the given id and payload, as
`SendMessage` would emit it: big-endian `len(payload)+1`, id, payload. -/
def encodeFrame (id : Nat) (payload : List Nat) : List Nat :=
  be32 (payload.length + 1) ++ id :: payload

/-- A block request (Go `BlockRequest`): piece index, byte offset within the
piece, block length. -/
structure BlockRequest where
  index : Nat
  offset : Nat
  length : Nat
  deriving DecidableEq, Repr

/-- The request list `GetPiece` builds: blocks of `BlockSize = 16384` bytes,
the last one shorter when `remaining < BlockSize`.  `fuel ≥ remaining` makes
the loop total (each iteration consumes at least one byte of `remaining`). -/
def buildRequestsAux (pieceIndex : Nat) : Nat → Nat → Nat → List BlockRequest
  | 0, _, _ => []
  | fuel + 1, start, remaining =>
    if remaining = 0 then []
    else
      let blockLen := if remaining < 16384 then remaining else 16384
      ⟨pieceIndex, start, blockLen⟩ ::
        buildRequestsAux pieceIndex fuel (start + blockLen) (remaining - blockLen)

/-- The block requests for a piece of length `pieceLength`. -/
def buildRequests (pieceIndex pieceLength : Nat) : List BlockRequest :=
  buildRequestsAux pieceIndex pieceLength 0 pieceLength

/-- The pipelining top-up loop of `getBlocks`:
`for requested < numBlocks && requested-received < MaxPipelineRequests`.
Each pass sends one request frame and increments `requested`; sends always
succeed in the model.  `fuel ≥ numBlocks` makes the loop total. -/
def topUpAux (numBlocks : Nat) : Nat → Nat → Nat → Nat
  | 0, requested, _ => requested
  | fuel + 1, requested, received =>
    if requested < numBlocks ∧ requested - received < 5 then
      topUpAux numBlocks fuel (requested + 1) received
    else requested

/-- One `getBlocks` execution from a given state, instrumented with the
trace of `(requested, received)` pairs observed at each `ReadMessage` call
(after the top-up loop).  Loop body: top up outstanding requests to the
pipeline cap, read one frame, require id 7 (`piece`) and a payload of at
least 8 bytes, drop the 8-byte index/begin prefix and store the block at
slot `received`.  Any violation is an error (`none` result); the consumed
stream and the trace are returned in every case.  `fuel ≥ numBlocks −
received` makes the loop total. -/
def getBlocksAux (numBlocks : Nat) :
    Nat → Nat → Nat → List Nat → List (List Nat) →
    Option (List (List Nat)) × List Nat × List (Nat × Nat)
  | 0, _, received, stream, blocks =>
    if received < numBlocks then (none, stream, []) else (some blocks, stream, [])
  | fuel + 1, requested, received, stream, blocks =>
    if received < numBlocks then
      let r1 := topUpAux numBlocks numBlocks requested received
      match readMessage stream with
      | none => (none, stream, [(r1, received)])
      | some (msg, stream1) =>
        if msg.id ≠ 7 then (none, stream1, [(r1, received)])
        else if msg.payload.length < 8 then (none, stream1, [(r1, received)])
        else
          match getBlocksAux numBlocks fuel r1 (received + 1) stream1
              (blocks.set received (msg.payload.drop 8)) with
          | (res, stream2, tr) => (res, stream2, (r1, received) :: tr)
    else (some blocks, stream, [])

/-- Go `getBlocks`: download `requests.length` blocks over the stream with
pipelining, starting from `requested = received = 0` and an all-empty block
table (Go `make([][]byte, numBlocks)`). -/
def getBlocks (stream : List Nat) (requests : List BlockRequest) :
    Option (List (List Nat)) × List Nat × List (Nat × Nat) :=
  getBlocksAux requests.length requests.length 0 0 stream
    (List.replicate requests.length [])

/-- Go `GetPiece`: build the block requests, run `getBlocks`, concatenate
the blocks, and compare the SHA-1 of the assembled piece against the
expected hash; a mismatch is an error (no payload). -/
def getPiece (stream : List Nat) (pieceHash : List Nat)
    (pieceLength pieceIndex : Nat) : Option (List Nat) × List Nat :=
  match getBlocks stream (buildRequests pieceIndex pieceLength) with
  | (some blocks, stream1, _) =>
    let piece := blocks.flatten
    if hashPiece piece = pieceHash then (some piece, stream1) else (none, stream1)
  | (none, stream1, _) => (none, stream1)

/-- Go `BitField.HasPiece`: byte `index/8`, bit `7 − index%8` (MSB first);
out-of-range byte index gives `false`.  (Go's `int` index can also be
negative, in which case the byte index truncates to 0 and the shift by more
than 7 yields `false`; the claims quantify over non-negative indices.) -/
def hasPiece (bf : List Nat) (index : Nat) : Bool :=
  let byteIndex := index / 8
  let offset := index % 8
  if byteIndex ≥ bf.length then false
  else ((bf.getD byteIndex 0) >>> (7 - offset)) &&& 1 ≠ 0

/-! ## Download worker (`internal/downloader/worker.go`)

One worker owns one peer session.  The work queue is modelled as the list of
items this worker receives from the channel, the results and errors channels
as the lists of values the worker sends on them.  The queue channel is
receive-only (`<-chan *PieceWork`) in the worker: the worker cannot re-offer
an item, and the `requeued` component below is what the worker puts back —
by construction of the source, nothing. -/

/-- A work item (`PieceWork`): index, expected 20-byte hash, length. -/
structure PieceWork where
  index : Nat
  hash : List Nat
  length : Nat
  deriving DecidableEq, Repr

/-- A delivered result (`PieceResult`): index and verified payload. -/
structure PieceResult where
  index : Nat
  payload : List Nat
  deriving DecidableEq, Repr

/-- A non-fatal per-piece failure the worker reports on the errors channel
(`WorkerError` with phase `download`); only the piece index matters to the
claims. -/
structure WorkerError where
  index : Nat
  deriving DecidableEq, Repr

/-- The retry loop of `downloadPieceWithRetry` from attempt number `attempt`
with `rem` attempts remaining (`rem = MaxRetries − attempt`): call
`GetPiece`; on success return the piece; on failure sleep
`(attempt+1) * 100ms` — recorded in the backoff list — unless this was the
last attempt, then try again.  Returns the result, the remaining stream, and
the backoff durations slept (in milliseconds). -/
def retryAux (work : PieceWork) :
    Nat → Nat → List Nat → Option (List Nat) × List Nat × List Nat
  | _, 0, stream => (none, stream, [])
  | attempt, rem + 1, stream =>
    match getPiece stream work.hash work.length work.index with
    | (some piece, stream1) => (some piece, stream1, [])
    | (none, stream1) =>
      if rem ≠ 0 then
        match retryAux work (attempt + 1) rem stream1 with
        | (res, stream2, backoffs) => (res, stream2, (attempt + 1) * 100 :: backoffs)
      else (none, stream1, [])

/-- Go `downloadPieceWithRetry`: up to `maxRetries` `GetPiece` attempts on
the same peer with linear backoff between attempts. -/
def downloadPieceWithRetry (maxRetries : Nat) (work : PieceWork)
    (stream : List Nat) : Option (List Nat) × List Nat × List Nat :=
  retryAux work 0 maxRetries stream

/-- Go `downloadLoop`: drain the queue.  For each item: if the peer's
bitfield lacks the piece, `continue` (the item is neither re-offered nor
reported); otherwise download with retry — success sends a `PieceResult` on
the results channel, exhausted retries send a `WorkerError` on the errors
channel and the item is dropped.  Returns (results, errors, requeued items,
remaining stream); the worker holds no send-capability on the queue, so the
requeued list is nil on every path of the source. -/
def downloadLoop (maxRetries : Nat) (bf : List Nat) :
    List PieceWork → List Nat →
    List PieceResult × List WorkerError × List PieceWork × List Nat
  | [], stream => ([], [], [], stream)
  | work :: queue, stream =>
    if hasPiece bf work.index = false then downloadLoop maxRetries bf queue stream
    else
      match downloadPieceWithRetry maxRetries work stream with
      | (some piece, stream1, _) =>
        match downloadLoop maxRetries bf queue stream1 with
        | (results, errs, requeued, stream2) =>
          (⟨work.index, piece⟩ :: results, errs, requeued, stream2)
      | (none, stream1, _) =>
        match downloadLoop maxRetries bf queue stream1 with
        | (results, errs, requeued, stream2) =>
          (results, ⟨work.index⟩ :: errs, requeued, stream2)

/-! ## Download coordinator (`internal/downloader/downloader.go`)

`Download` seeds the work queue, runs the workers, and collects results.
`collectResults` stores each arriving `PieceResult` by index and returns the
piece table when the results channel closes; `Download` then concatenates
the table (a nil slot contributes nothing) and returns it with a nil error.
`validatePieces` — the check for nil slots producing a `DownloadError` with
the missing indices — exists in the source but is called from nowhere. -/

/-- Go `uint32(z)` for an `int`: the low 32 bits, two's complement. -/
def u32 (z : Int) : Nat := (z % 4294967296).toNat

/-- Go `fillWorkQueue`: one `PieceWork` per piece hash; every piece has
length `uint32(PieceLength)` except the last, which gets
`uint32(Length) − uint32(PieceLength)·(numPieces−1)` in wrapping `uint32`
arithmetic. -/
def fillWorkQueue (info : Info) : List PieceWork :=
  let hashes := pieceHashesOf info
  let n := hashes.length
  let pl := u32 info.pieceLength
  (List.range n).map fun i =>
    ⟨i, hashes.getD i [],
      if i = n - 1 then (u32 info.length + 4294967296 - pl * (n - 1) % 4294967296) % 4294967296
      else pl⟩

/-- Go `collectResults`: a piece table with one slot per piece, each
arriving result stored at its index, returned as-is when the results
channel closes.  (An out-of-range index would panic in Go; no claim
delivers one.) -/
def collectResults (numPieces : Nat) (results : List PieceResult) :
    List (Option (List Nat)) :=
  results.foldl (fun pieces r => pieces.set r.index (some r.payload))
    (List.replicate numPieces none)

/-- The tail of Go `Download` after the workers finish: collect the piece
table and concatenate it in index order; a nil slot appends nothing.  The
return value `some bytes` is Go's `(fileBytes, nil)` — success. -/
def downloadAssemble (numPieces : Nat) (results : List PieceResult) :
    Option (List Nat) :=
  some ((collectResults numPieces results).map (fun o => o.getD [])).flatten

/-- Go `validatePieces`: the indices of nil slots; `some missing` is the
`DownloadError{FailedPieces: missing}` it would return, `none` is nil (all
pieces present).  Dead code in the source: `Download` never calls it. -/
def validatePieces (pieces : List (Option (List Nat))) : Option (List Nat) :=
  let missing := (List.range pieces.length).filter (fun i => pieces.getD i none = none)
  if missing.length > 0 then some missing else none

/-! ## Magnet links (`internal/metainfo/magnet.go`)

`DeserializeMagnet` URL-parses the URI (Go stdlib, the boundary of the
model), takes the first `tr` and `xt` query parameters, strips every
occurrence of `urn:btih:` from `xt`, hex-decodes what remains and copies the
decoded bytes into a zero-initialized 20-byte array — without any length
check. -/

/-- The bytes of `urn:btih:`. -/
def btihPat : List Nat := [117, 114, 110, 58, 98, 116, 105, 104, 58]

/-- The scan of `strings.ReplaceAll(s, "urn:btih:", "")`: remove every
non-overlapping occurrence, scanning left to right.  `fuel ≥ s.length` makes
the scan total (each step consumes at least one byte). -/
def replaceAllBtihAux : Nat → List Nat → List Nat
  | 0, s => s
  | _ + 1, [] => []
  | fuel + 1, c :: rest =>
    if btihPat.isPrefixOf (c :: rest) then replaceAllBtihAux fuel (rest.drop 8)
    else c :: replaceAllBtihAux fuel rest

/-- Go `strings.ReplaceAll(s, "urn:btih:", "")`. -/
def replaceAllBtih (s : List Nat) : List Nat := replaceAllBtihAux s.length s

/-- One hex digit's value (Go `encoding/hex`): `0-9`, `a-f`, `A-F`. -/
def hexDigit (c : Nat) : Option Nat :=
  if 48 ≤ c ∧ c ≤ 57 then some (c - 48)
  else if 97 ≤ c ∧ c ≤ 102 then some (c - 87)
  else if 65 ≤ c ∧ c ≤ 70 then some (c - 55)
  else none

/-- Go `hex.DecodeString`: pairs of hex digits; an odd length or a non-hex
character is an error. -/
def hexDecode : List Nat → Option (List Nat)
  | [] => some []
  | [_] => none
  | a :: b :: rest =>
    match hexDigit a, hexDigit b, hexDecode rest with
    | some ha, some hb, some r => some ((16 * ha + hb) :: r)
    | _, _, _ => none

/-- A parsed magnet link: tracker URL, the 20-byte infohash array, and the
hex text it was decoded from. -/
structure MagnetLink where
  trackerURL : List Nat
  infoHash : List Nat
  hexInfoHash : List Nat
  deriving DecidableEq, Repr

/-- Go `DeserializeMagnet` after query extraction: `tr` and `xt` are the
first values of those query parameters.  `copy(infoHash[:], decodedHash)`
copies at most 20 bytes into the zero array, so short digests are
zero-padded at the end and long ones truncated. -/
def deserializeMagnet (tr xt : List Nat) : Option MagnetLink :=
  let hexIH := replaceAllBtih xt
  match hexDecode hexIH with
  | none => none
  | some bs =>
    some ⟨tr, bs.take 20 ++ List.replicate (20 - (bs.take 20).length) 0, hexIH⟩

/-! ## Auxiliary definitions for the theorems -/

/-- The wire bytes of a list of frames, each given as (id, payload). -/
def encodeFrames (ms : List (Nat × List Nat)) : List Nat :=
  (ms.map (fun m => encodeFrame m.1 m.2)).flatten

/-- Write `xs` into `l` at consecutive positions starting at `i` (the shape
of `getBlocks`' `blocks[received] = blockData` writes). -/
def setFrom (l : List (List Nat)) (i : Nat) : List (List Nat) → List (List Nat)
  | [] => l
  | x :: xs => setFrom (l.set i x) (i + 1) xs

/-- A frame acceptable to the `getBlocks` loop: a `piece` id, a payload
carrying at least the 8-byte index/begin prefix, and a length field that
fits the 4-byte prefix. -/
def goodFrame (m : Nat × List Nat) : Prop :=
  m.1 = 7 ∧ 8 ≤ m.2.length ∧ m.2.length + 1 < 4294967296

instance goodFrameDec : DecidablePred goodFrame := fun m =>
  decidable_of_iff (m.1 = 7 ∧ 8 ≤ m.2.length ∧ m.2.length + 1 < 4294967296) Iff.rfl

/-- The decoded value of one file entry as the decoder produces it from
`serializeFile`: a map with the `length` integer and the `path` list of
strings. -/
def fileVal (f : FileInfo) : BVal :=
  BVal.dict [(keyLength, BVal.int f.length), (keyPath, BVal.list (f.path.map BVal.str))]

/-- Decoder fuel sufficient for a `files` list: each file entry costs its
path length plus the five nested decode calls of its dictionary, and one
call closes the list. -/
def filesFuel : List FileInfo → Nat
  | [] => 1
  | f :: fs => f.path.length + 5 + filesFuel fs

/-- A well-formed bencoded `info` dictionary whose keys are NOT in canonical
sorted order: `name`, `piece length`, `pieces`, `length`
(`d4:name1:x12:piece lengthi1e6:pieces1:�6:lengthi3ee`). -/
def c3Input : List Nat :=
  [100, 52, 58, 110, 97, 109, 101, 49, 58, 120,
   49, 50, 58, 112, 105, 101, 99, 101, 32, 108, 101, 110, 103, 116, 104,
   105, 49, 101,
   54, 58, 112, 105, 101, 99, 101, 115, 49, 58, 255,
   54, 58, 108, 101, 110, 103, 116, 104, 105, 51, 101,
   101]

/-- The dictionary the decoder produces from `c3Input` (insertion order). -/
def c3Dict : List (List Nat × BVal) :=
  [(keyName, BVal.str [120]), (keyPieceLength, BVal.int 1),
   (keyPieces, BVal.bytes [255]), (keyLength, BVal.int 3)]

/-- The `Info` parsed from `c3Dict`. -/
def c3Info : Info := ⟨3, [120], 1, [255], []⟩

/-! ## Shared lemmas -/

/-- SHA-1 sanity check against the standard test vector for the empty input:
`da39a3ee5e6b4b0d3255bfef95601890afd80709`. -/
theorem hashPiece_empty :
    hashPiece [] =
      [0xda, 0x39, 0xa3, 0xee, 0x5e, 0x6b, 0x4b, 0x0d, 0x32, 0x55,
       0xbf, 0xef, 0x95, 0x60, 0x18, 0x90, 0xaf, 0xd8, 0x07, 0x09] := by
  decide

/-- SHA-1 sanity check against the standard test vector for `"abc"`:
`a9993e364706816aba3e25717850c26c9cd0d89d`. -/
theorem hashPiece_abc :
    hashPiece [97, 98, 99] =
      [0xa9, 0x99, 0x3e, 0x36, 0x47, 0x06, 0x81, 0x6a, 0xba, 0x3e,
       0x25, 0x71, 0x78, 0x50, 0xc2, 0x6c, 0x9c, 0xd0, 0xd8, 0x9d] := by
  decide

/-- Reassembling a big-endian 4-byte encoding recovers the value. -/
theorem be32_value (x : Nat) (h : x < 4294967296) :
    ((x / 16777216 % 256 * 256 + x / 65536 % 256) * 256 + x / 256 % 256) * 256
      + x % 256 = x := by
  omega

/-- `ReadMessage` on a frame `SendMessage` would emit parses it back and
leaves exactly the trailing stream. -/
theorem readMessage_encodeFrame (id : Nat) (p rest : List Nat)
    (h : p.length + 1 < 4294967296) :
    readMessage (encodeFrame id p ++ rest) = some (⟨p.length + 1, id, p⟩, rest) := by
  simp only [encodeFrame, be32, List.cons_append, List.nil_append, readMessage,
    List.append_assoc]
  rw [be32_value (p.length + 1) h]
  have hlen : ¬ ((id :: (p ++ rest)).length < p.length + 1) := by
    simp only [List.length_cons, List.length_append]
    omega
  simp only [List.cons_append] at hlen ⊢
  rw [if_neg hlen]
  have htake : (id :: (p ++ rest)).take (p.length + 1) = id :: p := by
    simp only [List.take_succ_cons]
    exact congrArg (id :: ·) (List.take_left p rest)
  have hdrop : (id :: (p ++ rest)).drop (p.length + 1) = rest := by
    simp only [List.drop_succ_cons]
    exact List.drop_left p rest
  rw [htake, hdrop]

/-! ## C7: bencoded integer edge cases -/

/-- C7: bencoded integer decoding over `internal/bencode`: `i0e` decodes to
`0` and `i-42e` to `-42`, while `i-0e`, `i03e` (leading zero other than the
literal `0`) and the bare minus `i-e` are each rejected with a decode
error. -/
theorem c7_int_decoding :
    goDecode [105, 48, 101] = some (BVal.int 0) ∧
    goDecode [105, 45, 52, 50, 101] = some (BVal.int (-42)) ∧
    goDecode [105, 45, 48, 101] = none ∧
    goDecode [105, 48, 51, 101] = none ∧
    goDecode [105, 45, 101] = none :=
  ⟨rfl, rfl, rfl, rfl, rfl⟩

/-! ## C2: `Download` succeeds without all pieces (a code bug)

`collectResults` returns the piece table as soon as the results channel
closes, and `Download` concatenates it and returns a nil error without ever
calling `validatePieces`.  With one piece and no delivered results the run
returns `([], nil)` — success with an empty payload — although the check the
source carries (but never invokes) would report `DownloadError` with missing
index 0. -/

/-- C2: at the failing input (piece count 1, results channel drained empty),
the `Download` tail returns success with a short (empty) byte sequence, while
the never-called `validatePieces` on the same table reports exactly the
missing index 0.  The claim — that `Download` returns a `DownloadError`
naming the missing indices instead of a short success — describes the dead
check, not the behavior of `Download`. -/
theorem c2_download_ignores_missing_pieces :
    downloadAssemble 1 [] = some [] ∧
    validatePieces (collectResults 1 []) = some [0] :=
  ⟨rfl, rfl⟩

/-! ## C9: a zero-length frame is an error, not an ignored keepalive -/

/-- C9 counterexample: a keepalive (4-byte length prefix 0) followed by a
well-formed `unchoke` frame makes `ReadMessage` fail — it does not skip to
the next frame — although the very same `unchoke` frame alone parses fine.
The claim that the message-reading path ignores keepalives and continues is
false on this input. -/
theorem c9_counterexample :
    readMessage ([0, 0, 0, 0] ++ encodeFrame 1 []) = none ∧
    readMessage (encodeFrame 1 []) = some (⟨1, 1, []⟩, []) :=
  ⟨rfl, rfl⟩

/-- C9 (amended): a received frame whose 4-byte length prefix is 0 causes
`ReadMessage` to return an error — reading the message id from the empty
frame body fails with EOF — whatever follows on the stream; a frame with a
non-zero length prefix is parsed normally.  Keepalives are not skipped. -/
theorem c9_keepalive_is_error :
    (∀ rest : List Nat, readMessage (0 :: 0 :: 0 :: 0 :: rest) = none) ∧
    (∀ (id : Nat) (rest : List Nat),
      readMessage ([0, 0, 0, 1] ++ id :: rest) = some (⟨1, id, []⟩, rest)) := by
  constructor
  · intro rest
    simp [readMessage]
  · intro id rest
    exact readMessage_encodeFrame id [] rest (by decide)

/-! ## C5 counterexample: a skipped work item is not re-offered -/

/-- C5 counterexample: a worker whose peer bitfield (`0x00`) lacks piece 0
dequeues the only work item and finishes: no result, no error, and nothing
re-offered to the queue (the worker side of the channel is receive-only).
The claim that the item is re-offered so another worker may claim it is
false for this worker loop: the item simply vanishes. -/
theorem c5_counterexample :
    downloadLoop 3 [0] [⟨0, [], 1⟩] [] = ([], [], [], []) :=
  rfl

/-! ## C6 counterexample: the echoed piece index is not checked -/

/-- C6 counterexample: downloading piece 1 (the single block request carries
index 1), the remote answers with a `piece` frame echoing index 9; the claim
says this mismatch is a fatal session error, but `getBlocks` succeeds and
stores the block — only the id and the payload length are checked, the
8-byte index/begin prefix is stripped unread. -/
theorem c6_counterexample :
    buildRequests 1 1 = [⟨1, 0, 1⟩] ∧
    (getBlocks (encodeFrame 7 [0, 0, 0, 9, 0, 0, 0, 0, 42]) (buildRequests 1 1)).1
      = some [[42]] :=
  ⟨rfl, rfl⟩

/-! ## C8: bitfield bit order, and spare bits past `piece_count` -/

/-- Out-of-range bit indices: byte `index/8` beyond the bitfield yields
`false`. -/
theorem hasPiece_of_le (bf : List Nat) (i : Nat) (h : 8 * bf.length ≤ i) :
    hasPiece bf i = false := by
  have : bf.length ≤ i / 8 := (Nat.le_div_iff_mul_le (by omega)).2 (by omega)
  simp only [hasPiece, ge_iff_le, this, if_true]

/-- C8 counterexample: `has_piece` takes no `piece_count`; with a one-byte
bitfield `0xFF` for a torrent of 5 pieces (`⌈5/8⌉ = 1` byte), index 5 is at
or past `piece_count` yet `has_piece` reads the set spare bit and returns
`true`.  The claim's unconditional `i ≥ piece_count → has_piece = false` is
false. -/
theorem c8_counterexample :
    ¬ (∀ (bf : List Nat) (pieceCount i : Nat),
        bf.length = (pieceCount + 7) / 8 → pieceCount ≤ i →
        hasPiece bf i = false) := by
  intro h
  have h5 := h [255] 5 5 (by decide) (by omega)
  have : hasPiece [255] 5 = true := by decide
  rw [this] at h5
  exact Bool.true_eq_false.mp h5

/-- C8 (amended): `has_piece` reads bit `i` as the `(7 − i mod 8)`-th,
MSB-first, bit of byte `i/8` — byte `0b10100000` gives `true` exactly at
indices 0 and 2; any index at or beyond `8·len(bitfield)` reads `false`;
and when the bits at positions `piece_count` and beyond are all zero (the
spec's reserved-zero bitfield invariant), every `i ≥ piece_count` reads
`false`.  Without that invariant a set spare bit is reported as a held
piece. -/
theorem c8_bit_order :
    (∀ i : Nat, hasPiece [160] i = decide (i = 0 ∨ i = 2)) ∧
    (∀ (bf : List Nat) (i : Nat), 8 * bf.length ≤ i → hasPiece bf i = false) ∧
    (∀ (bf : List Nat) (pieceCount : Nat),
      (∀ j, pieceCount ≤ j → j < 8 * bf.length →
        (bf.getD (j / 8) 0 >>> (7 - j % 8)) &&& 1 = 0) →
      ∀ i, pieceCount ≤ i → hasPiece bf i = false) := by
  refine ⟨?_, hasPiece_of_le, ?_⟩
  · intro i
    by_cases h : i < 8
    · interval_cases i <;> decide
    · rw [hasPiece_of_le [160] i (by simpa using by omega)]
      have : ¬ (i = 0 ∨ i = 2) := by omega
      simp [this]
  · intro bf pieceCount h i hi
    by_cases hlen : 8 * bf.length ≤ i
    · exact hasPiece_of_le bf i hlen
    · have hbit := h i hi (by omega)
      have hidx : ¬ (bf.length ≤ i / 8) := by
        intro hc
        exact hlen (by
          have := (Nat.le_div_iff_mul_le (by omega : 0 < 8)).1 hc
          omega)
      simp only [hasPiece, ge_iff_le, hidx, if_false, hbit]
      simp

/-! ## Pipelining lemmas (`getBlocks`) -/

/-- Bounds on the top-up loop: starting from `requested ≤ n` and
`requested ≤ received + 5` with `received < n` and enough fuel, the loop
neither shrinks `requested`, nor exceeds `n`, nor exceeds the pipeline cap,
and it always leaves at least one outstanding request. -/
theorem topUpAux_bounds (n : Nat) :
    ∀ (fuel requested received : Nat), requested ≤ n → requested ≤ received + 5 →
      n ≤ requested + fuel → received < n →
      requested ≤ topUpAux n fuel requested received ∧
      topUpAux n fuel requested received ≤ n ∧
      topUpAux n fuel requested received ≤ received + 5 ∧
      received < topUpAux n fuel requested received := by
  intro fuel
  induction fuel with
  | zero =>
    intro requested received h1 h2 hfuel hlt
    simp only [topUpAux]
    omega
  | succ fuel ih =>
    intro requested received h1 h2 hfuel hlt
    simp only [topUpAux]
    by_cases hc : requested < n ∧ requested - received < 5
    · rw [if_pos hc]
      have := ih (requested + 1) received (by omega) (by omega) (by omega) hlt
      omega
    · rw [if_neg hc]
      omega

/-- Invariants of the `getBlocks` loop trace: at every `ReadMessage` point
(after topping up), `received ≤ requested ≤ numBlocks`, the outstanding
count `requested − received` is at most the pipeline cap 5 and at least 1,
and `received < numBlocks`. -/
theorem getBlocksAux_trace (n : Nat) :
    ∀ (fuel requested received : Nat) (stream : List Nat) (blocks : List (List Nat)),
      received ≤ requested → requested ≤ n → requested ≤ received + 5 →
      ∀ rc ∈ (getBlocksAux n fuel requested received stream blocks).2.2,
        rc.2 ≤ rc.1 ∧ rc.1 ≤ n ∧ rc.1 ≤ rc.2 + 5 ∧ rc.2 < rc.1 ∧ rc.2 < n := by
  intro fuel
  induction fuel with
  | zero =>
    intro requested received stream blocks _ _ _ rc hrc
    simp only [getBlocksAux] at hrc
    by_cases hlt : received < n <;> simp [hlt] at hrc
  | succ fuel ih =>
    intro requested received stream blocks h1 h2 h3 rc hrc
    simp only [getBlocksAux] at hrc
    by_cases hlt : received < n
    · rw [if_pos hlt] at hrc
      have htop := topUpAux_bounds n n requested received h2 h3 (by omega) hlt
      set r1 := topUpAux n n requested received with hr1
      rcases hread : readMessage stream with _ | ⟨msg, stream1⟩ <;>
        rw [hread] at hrc <;> dsimp only at hrc
      · simp only [List.mem_singleton] at hrc
        subst hrc
        exact ⟨by omega, by omega, by omega, by omega, hlt⟩
      · by_cases hid : msg.id ≠ 7
        · rw [if_pos hid] at hrc
          simp only [List.mem_singleton] at hrc
          subst hrc
          exact ⟨by omega, by omega, by omega, by omega, hlt⟩
        · rw [if_neg hid] at hrc
          by_cases hshort : msg.payload.length < 8
          · rw [if_pos hshort] at hrc
            simp only [List.mem_singleton] at hrc
            subst hrc
            exact ⟨by omega, by omega, by omega, by omega, hlt⟩
          · rw [if_neg hshort] at hrc
            dsimp only at hrc
            simp only [List.mem_cons] at hrc
            rcases hrc with hrc | hrc
            · subst hrc
              exact ⟨by omega, by omega, by omega, by omega, hlt⟩
            · exact ih r1 (received + 1) stream1
                (blocks.set received (msg.payload.drop 8))
                (by omega) (by omega) (by omega) rc hrc
    · rw [if_neg hlt] at hrc
      simp at hrc

/-- Writing a run of values starting at `i` replaces that segment of the
list, provided it fits. -/
theorem setFrom_eq :
    ∀ (xs : List (List Nat)) (l : List (List Nat)) (i : Nat),
      i + xs.length ≤ l.length →
      setFrom l i xs = l.take i ++ xs ++ l.drop (i + xs.length) := by
  intro xs
  induction xs with
  | nil =>
    intro l i _
    simp [setFrom]
  | cons x xs ih =>
    intro l i h
    simp only [List.length_cons] at h
    have hi : i < l.length := by omega
    have hlen : i + 1 + xs.length ≤ (l.set i x).length := by
      simp only [List.length_set]
      omega
    rw [setFrom, ih (l.set i x) (i + 1) hlen]
    rw [List.set_eq_take_cons_drop x hi]
    rw [List.take_append_eq_append_take, List.drop_append_eq_append_drop]
    have htki : (l.take i).length = i := List.length_take_of_le (by omega)
    rw [htki, List.take_take]
    have hmin : min (i + 1) i = i := by omega
    have h1 : i + 1 - i = 1 := by omega
    rw [hmin, h1]
    have hdrop0 : (l.take i).drop (i + 1 + xs.length) = [] :=
      List.drop_eq_nil_of_le (by rw [htki]; omega)
    have h2 : i + 1 + xs.length - i = xs.length + 1 := by omega
    rw [hdrop0, h2]
    simp only [List.take_succ_cons, List.take_zero, List.drop_succ_cons,
      List.drop_drop, List.nil_append, List.append_assoc, List.cons_append,
      List.length_cons]
    have h3 : i + 1 + xs.length = i + (xs.length + 1) := by omega
    rw [h3]

/-- A run of the `getBlocks` loop over well-formed `piece` frames succeeds,
consumes exactly the frames, and stores the 8-byte-stripped payload of the
`k`-th frame at block slot `received + k` — whatever the stripped prefix
bytes contain. -/
theorem getBlocksAux_success (n : Nat) :
    ∀ (ms : List (Nat × List Nat)) (fuel requested received : Nat)
      (blocks : List (List Nat)) (junk : List Nat),
      received + ms.length = n → ms.length ≤ fuel →
      received ≤ requested → requested ≤ n → requested ≤ received + 5 →
      (∀ m ∈ ms, goodFrame m) →
      (getBlocksAux n fuel requested received (encodeFrames ms ++ junk) blocks).1
          = some (setFrom blocks received (ms.map (fun m => m.2.drop 8))) ∧
      (getBlocksAux n fuel requested received (encodeFrames ms ++ junk) blocks).2.1
          = junk := by
  intro ms
  induction ms with
  | nil =>
    intro fuel requested received blocks junk hn _ _ _ _ _
    simp only [List.length_nil, Nat.add_zero] at hn
    have hlt : ¬ (received < n) := by omega
    cases fuel <;>
      refine ⟨?_, ?_⟩ <;>
      simp [getBlocksAux, hlt, encodeFrames, setFrom]
  | cons m ms ih =>
    intro fuel requested received blocks junk hn hfuel h1 h2 h3 hgood
    simp only [List.length_cons] at hn hfuel
    have hlt : received < n := by omega
    cases fuel with
    | zero => omega
    | succ fuel =>
      have hgm := hgood m (List.mem_cons_self m ms)
      obtain ⟨hid7, hlen8, hlen32⟩ := hgm
      have hstream : encodeFrames (m :: ms) ++ junk
          = encodeFrame m.1 m.2 ++ (encodeFrames ms ++ junk) := by
        simp [encodeFrames, List.append_assoc]
      simp only [getBlocksAux, hlt, if_pos]
      rw [hstream, readMessage_encodeFrame m.1 m.2 _ hlen32]
      dsimp only
      rw [if_neg (by simp [hid7])]
      rw [if_neg (by simp; omega)]
      have htop := topUpAux_bounds n n requested received h2 h3 (by omega) hlt
      dsimp only
      have := ih fuel (topUpAux n n requested received) (received + 1)
        (blocks.set received (m.2.drop 8)) junk
        (by omega) (by omega) (by omega) (by omega) (by omega)
        (fun x hx => hgood x (List.mem_cons_of_mem m hx))
      exact ⟨this.1, this.2⟩

/-- A frame with a non-`piece` id or a payload shorter than 8 bytes, arriving
at any point while blocks are still owed, makes the `getBlocks` loop return
an error. -/
theorem getBlocksAux_fail (n : Nat) :
    ∀ (ms : List (Nat × List Nat)) (bad : Nat × List Nat)
      (fuel requested received : Nat)
      (blocks : List (List Nat)) (junk : List Nat),
      received + ms.length < n → ms.length < fuel →
      received ≤ requested → requested ≤ n → requested ≤ received + 5 →
      (∀ m ∈ ms, goodFrame m) →
      bad.2.length + 1 < 4294967296 →
      (bad.1 ≠ 7 ∨ bad.2.length < 8) →
      (getBlocksAux n fuel requested received
        (encodeFrames ms ++ encodeFrame bad.1 bad.2 ++ junk) blocks).1 = none := by
  intro ms
  induction ms with
  | nil =>
    intro bad fuel requested received blocks junk hn hfuel h1 h2 h3 _ hlen32 hbad
    have hlt : received < n := by omega
    cases fuel with
    | zero => omega
    | succ fuel =>
      simp only [encodeFrames, List.map_nil, List.flatten_nil, List.nil_append]
      simp only [getBlocksAux, hlt, if_pos]
      rw [readMessage_encodeFrame bad.1 bad.2 junk hlen32]
      dsimp only
      rcases hbad with hbad | hbad
      · rw [if_pos (by simpa using hbad)]
      · by_cases hid : bad.1 ≠ 7
        · rw [if_pos (by simpa using hid)]
        · rw [if_neg (by simpa using hid), if_pos (by simpa using hbad)]
  | cons m ms ih =>
    intro bad fuel requested received blocks junk hn hfuel h1 h2 h3 hgood hlen32 hbad
    simp only [List.length_cons] at hn hfuel
    have hlt : received < n := by omega
    cases fuel with
    | zero => omega
    | succ fuel =>
      obtain ⟨hid7, hlen8, hm32⟩ := hgood m (List.mem_cons_self m ms)
      have hstream : encodeFrames (m :: ms) ++ encodeFrame bad.1 bad.2 ++ junk
          = encodeFrame m.1 m.2
            ++ (encodeFrames ms ++ encodeFrame bad.1 bad.2 ++ junk) := by
        simp [encodeFrames, List.append_assoc]
      simp only [getBlocksAux, hlt, if_pos]
      rw [hstream, readMessage_encodeFrame m.1 m.2 _ hm32]
      dsimp only
      rw [if_neg (by simp [hid7])]
      rw [if_neg (by simp; omega)]
      have htop := topUpAux_bounds n n requested received h2 h3 (by omega) hlt
      dsimp only
      exact ih bad fuel (topUpAux n n requested received) (received + 1)
        (blocks.set received (m.2.drop 8)) junk
        (by omega) (by omega) (by omega) (by omega) (by omega)
        (fun x hx => hgood x (List.mem_cons_of_mem m hx)) hlen32 hbad

/-! ## C4: pipelining counters and block placement -/

/-- C4: throughout a piece download, at every read point of the `getBlocks`
loop the counters satisfy `received ≤ requested ≤ block_count` and
`requested − received ≤ 5` (`MaxPipelineRequests`), the outstanding count
`requested − received` never drops to 0 while blocks are still owed
(`received < block_count` at every read point), and on a successful run the
`k`-th received frame's payload, minus its 8-byte prefix, is stored at block
slot `k`. -/
theorem c4_pipelining_invariants :
    (∀ (stream : List Nat) (requests : List BlockRequest),
      ∀ rc ∈ (getBlocks stream requests).2.2,
        rc.2 ≤ rc.1 ∧ rc.1 ≤ requests.length ∧ rc.1 - rc.2 ≤ 5 ∧
        0 < rc.1 - rc.2 ∧ rc.2 < requests.length) ∧
    (∀ (ms : List (Nat × List Nat)) (junk : List Nat)
       (requests : List BlockRequest),
      ms.length = requests.length → (∀ m ∈ ms, goodFrame m) →
      (getBlocks (encodeFrames ms ++ junk) requests).1
        = some (ms.map (fun m => m.2.drop 8))) := by
  constructor
  · intro stream requests rc hrc
    have := getBlocksAux_trace requests.length requests.length 0 0 stream
      (List.replicate requests.length []) (Nat.le_refl 0) (Nat.zero_le _)
      (by omega) rc hrc
    omega
  · intro ms junk requests hlen hgood
    have h := (getBlocksAux_success requests.length ms requests.length
      0 0 (List.replicate requests.length []) junk
      (by omega) (by omega) (Nat.le_refl 0) (Nat.zero_le _) (by omega) hgood).1
    rw [getBlocks, h, setFrom_eq _ _ 0 (by simp [hlen])]
    simp only [List.take_zero, List.nil_append, Nat.zero_add]
    rw [List.drop_eq_nil_of_le (by simp [hlen])]
    simp

/-- C4 witness: a concrete two-block run: the trace entry `(2, 0)` (both
requests outstanding before the first read) satisfies the counter bounds,
and the stripped payloads land in slots 0 and 1. -/
theorem c4_pipelining_invariants_witness :
    (getBlocks (encodeFrames
        [(7, [0, 0, 0, 0, 0, 0, 0, 0, 1]), (7, [0, 0, 0, 0, 0, 0, 0, 0, 2])] ++ [])
        (buildRequests 0 32768)).1 = some [[1], [2]] ∧
    ((2 : Nat), (0 : Nat)).2 ≤ (2, 0).1 ∧ (0 : Nat) < (2 : Nat) - (0 : Nat) := by
  refine ⟨?_, ?_, ?_⟩
  · rw [c4_pipelining_invariants.2 _ _ _ (by decide) (by decide)]
    rfl
  · exact (c4_pipelining_invariants.1 (encodeFrames
      [(7, [0, 0, 0, 0, 0, 0, 0, 0, 1]), (7, [0, 0, 0, 0, 0, 0, 0, 0, 2])] ++ [])
      (buildRequests 0 32768) (2, 0) (by decide)).1
  · exact (c4_pipelining_invariants.1 (encodeFrames
      [(7, [0, 0, 0, 0, 0, 0, 0, 0, 1]), (7, [0, 0, 0, 0, 0, 0, 0, 0, 2])] ++ [])
      (buildRequests 0 32768) (2, 0) (by decide)).2.2.2.1

/-! ## C6 (amended): frame validation in the block loop -/

/-- C6 (amended): while downloading a piece, an inbound frame whose id is not
7 or whose payload is shorter than 8 bytes — at any point while blocks are
still owed — makes the block loop fail with an error; the echoed piece index
(and begin offset) in the first 8 payload bytes is never inspected: streams
agreeing on the stripped payloads produce identical results, whatever those
8-byte prefixes say. -/
theorem c6_frame_validation :
    (∀ (ms : List (Nat × List Nat)) (bad : Nat × List Nat) (junk : List Nat)
       (requests : List BlockRequest),
      ms.length < requests.length → (∀ m ∈ ms, goodFrame m) →
      bad.2.length + 1 < 4294967296 → (bad.1 ≠ 7 ∨ bad.2.length < 8) →
      (getBlocks (encodeFrames ms ++ encodeFrame bad.1 bad.2 ++ junk) requests).1
        = none) ∧
    (∀ (ms ms' : List (Nat × List Nat)) (junk junk' : List Nat)
       (requests : List BlockRequest),
      ms.length = requests.length → ms'.length = requests.length →
      (∀ m ∈ ms, goodFrame m) → (∀ m ∈ ms', goodFrame m) →
      ms.map (fun m => m.2.drop 8) = ms'.map (fun m => m.2.drop 8) →
      (getBlocks (encodeFrames ms ++ junk) requests).1
        = (getBlocks (encodeFrames ms' ++ junk') requests).1) := by
  constructor
  · intro ms bad junk requests hlen hgood h32 hbad
    exact getBlocksAux_fail requests.length ms bad requests.length
      0 0 (List.replicate requests.length []) junk
      (by omega) (by omega) (Nat.le_refl 0) (Nat.zero_le _) (by omega)
      hgood h32 hbad
  · intro ms ms' junk junk' requests hlen hlen' hgood hgood' hsame
    have h1 := (getBlocksAux_success requests.length ms requests.length
      0 0 (List.replicate requests.length []) junk
      (by omega) (by omega) (Nat.le_refl 0) (Nat.zero_le _) (by omega) hgood).1
    have h2 := (getBlocksAux_success requests.length ms' requests.length
      0 0 (List.replicate requests.length []) junk'
      (by omega) (by omega) (Nat.le_refl 0) (Nat.zero_le _) (by omega) hgood').1
    rw [getBlocks, h1, getBlocks, h2, hsame]

/-- C6 witness: a well-formed first frame then a 4-byte-payload `piece`
frame: the loop fails; and two runs whose frames differ only in the echoed
index bytes (indices 9 and 3 against requested piece 1) return the same
blocks. -/
theorem c6_frame_validation_witness :
    (getBlocks (encodeFrames [(7, [0, 0, 0, 9, 0, 0, 0, 0, 41])]
        ++ encodeFrame 7 [1, 2, 3, 4] ++ []) (buildRequests 1 32768)).1 = none ∧
    (getBlocks (encodeFrames [(7, [0, 0, 0, 9, 0, 0, 0, 0, 42])] ++ [])
        (buildRequests 1 1)).1
      = (getBlocks (encodeFrames [(7, [0, 0, 0, 3, 0, 0, 0, 7, 42])] ++ [9, 9])
        (buildRequests 1 1)).1 := by
  constructor
  · exact c6_frame_validation.1 [(7, [0, 0, 0, 9, 0, 0, 0, 0, 41])]
      (7, [1, 2, 3, 4]) [] (buildRequests 1 32768)
      (by decide) (by decide) (by decide) (by decide)
  · exact c6_frame_validation.2 [(7, [0, 0, 0, 9, 0, 0, 0, 0, 42])]
      [(7, [0, 0, 0, 3, 0, 0, 0, 7, 42])] [] [9, 9] (buildRequests 1 1)
      (by decide) (by decide) (by decide) (by decide) (by decide)

/-! ## C1: every delivered result satisfies the hash check -/

/-- A successful `GetPiece` implies the SHA-1 of the returned payload equals
the expected hash: the comparison is the last gate before returning. -/
theorem getPiece_hash (stream pieceHash : List Nat) (pieceLength pieceIndex : Nat)
    (p : List Nat)
    (h : (getPiece stream pieceHash pieceLength pieceIndex).1 = some p) :
    hashPiece p = pieceHash := by
  unfold getPiece at h
  rcases hgb : getBlocks stream (buildRequests pieceIndex pieceLength)
    with ⟨res, stream1, tr⟩
  rw [hgb] at h
  cases res with
  | none => simp at h
  | some blocks =>
    dsimp only at h
    by_cases hh : hashPiece blocks.flatten = pieceHash
    · rw [if_pos hh] at h
      simp only [Option.some_inj] at h
      rw [← h]
      exact hh
    · rw [if_neg hh] at h
      simp at h

/-- A successful retry loop implies some `GetPiece` attempt succeeded, so
the payload hash matches. -/
theorem retryAux_hash (work : PieceWork) :
    ∀ (rem attempt : Nat) (stream p : List Nat),
      (retryAux work attempt rem stream).1 = some p →
      hashPiece p = work.hash := by
  intro rem
  induction rem with
  | zero =>
    intro attempt stream p h
    simp [retryAux] at h
  | succ rem ih =>
    intro attempt stream p h
    rw [retryAux] at h
    rcases hgp : getPiece stream work.hash work.length work.index with ⟨res, stream1⟩
    rw [hgp] at h
    cases res with
    | some piece =>
      dsimp only at h
      simp only [Option.some_inj] at h
      exact h ▸ getPiece_hash stream work.hash work.length work.index piece
        (by rw [hgp])
    | none =>
      dsimp only at h
      by_cases hrem : rem ≠ 0
      · rw [if_pos hrem] at h
        rcases hr : retryAux work (attempt + 1) rem stream1 with ⟨res2, stream2, bk⟩
        rw [hr] at h
        dsimp only at h
        exact ih (attempt + 1) stream1 p (by rw [hr]; exact h)
      · rw [if_neg hrem] at h
        simp at h

/-- A successful `downloadPieceWithRetry` run returns a payload hashing to
the work item's expected hash. -/
theorem downloadPieceWithRetry_hash (maxRetries : Nat) (work : PieceWork)
    (stream p : List Nat)
    (h : (downloadPieceWithRetry maxRetries work stream).1 = some p) :
    hashPiece p = work.hash := by
  rw [downloadPieceWithRetry] at h
  exact retryAux_hash work maxRetries 0 stream p h

/-- Every result the worker loop sends came from a successful
`downloadPieceWithRetry` on some dequeued work item: its index is that
item's index and its payload hashes to that item's expected hash. -/
theorem downloadLoop_results (maxRetries : Nat) (bf : List Nat) :
    ∀ (queue : List PieceWork) (stream : List Nat) (r : PieceResult),
      r ∈ (downloadLoop maxRetries bf queue stream).1 →
      ∃ w ∈ queue, r.index = w.index ∧ hashPiece r.payload = w.hash := by
  intro queue
  induction queue with
  | nil =>
    intro stream r hr
    simp [downloadLoop] at hr
  | cons w queue ih =>
    intro stream r hr
    rw [downloadLoop] at hr
    by_cases hbf : hasPiece bf w.index = false
    · rw [if_pos hbf] at hr
      obtain ⟨w1, hw1, h⟩ := ih stream r hr
      exact ⟨w1, List.mem_cons_of_mem w hw1, h⟩
    · rw [if_neg hbf] at hr
      rcases hdp : downloadPieceWithRetry maxRetries w stream with ⟨res, stream1, bk⟩
      rw [hdp] at hr
      cases res with
      | some piece =>
        dsimp only at hr
        rcases hdl : downloadLoop maxRetries bf queue stream1
          with ⟨results, errs, rq, stream2⟩
        rw [hdl] at hr
        simp only [List.mem_cons] at hr
        rcases hr with hr | hr
        · subst hr
          refine ⟨w, List.mem_cons_self w queue, rfl, ?_⟩
          exact downloadPieceWithRetry_hash maxRetries w stream piece (by rw [hdp])
        · obtain ⟨w1, hw1, h⟩ := ih stream1 r (by rw [hdl]; exact hr)
          exact ⟨w1, List.mem_cons_of_mem w hw1, h⟩
      | none =>
        dsimp only at hr
        rcases hdl : downloadLoop maxRetries bf queue stream1
          with ⟨results, errs, rq, stream2⟩
        rw [hdl] at hr
        dsimp only at hr
        obtain ⟨w1, hw1, h⟩ := ih stream1 r (by rw [hdl]; exact hr)
        exact ⟨w1, List.mem_cons_of_mem w hw1, h⟩

/-- Work items built by `fillWorkQueue` carry the piece-hash table entry for
their index. -/
theorem fillWorkQueue_hash (info : Info) (w : PieceWork)
    (hw : w ∈ fillWorkQueue info) :
    w.index < (pieceHashesOf info).length ∧
    w.hash = (pieceHashesOf info).getD w.index [] := by
  simp only [fillWorkQueue, List.mem_map, List.mem_range] at hw
  obtain ⟨i, hi, hw⟩ := hw
  subst hw
  exact ⟨hi, rfl⟩

/-- C1: every `PieceResult` the worker delivers from the coordinator's work
queue satisfies the hash check: `SHA-1(payload) = piece_hash(index)`.
`GetPiece` refuses to return a payload whose SHA-1 differs from the expected
hash, the retry wrapper only forwards `GetPiece` successes, and
`downloadLoop` builds results only from such successes, so the check is
enforced inside the session for every delivered result. -/
theorem c1_delivered_results_verified (info : Info) (bf : List Nat)
    (stream : List Nat) (maxRetries : Nat) (r : PieceResult)
    (hr : r ∈ (downloadLoop maxRetries bf (fillWorkQueue info) stream).1) :
    r.index < (pieceHashesOf info).length ∧
    hashPiece r.payload = (pieceHashesOf info).getD r.index [] := by
  obtain ⟨w, hw, hidx, hhash⟩ :=
    downloadLoop_results maxRetries bf (fillWorkQueue info) stream r hr
  obtain ⟨hlt, hwh⟩ := fillWorkQueue_hash info w hw
  rw [hidx, hhash, hwh]
  exact ⟨hlt, rfl⟩

/-- C1 witness: a single-piece torrent whose piece hash is SHA-1(`"abc"`); a
peer that delivers `"abc"` in one block produces the result `(0, "abc")`,
and the theorem instantiates to the delivered payload hashing to the piece-0
table entry. -/
theorem c1_delivered_results_verified_witness :
    ⟨0, [97, 98, 99]⟩ ∈ (downloadLoop 3 [128]
      (fillWorkQueue ⟨3, [120], 1,
        [0xa9, 0x99, 0x3e, 0x36, 0x47, 0x06, 0x81, 0x6a, 0xba, 0x3e,
         0x25, 0x71, 0x78, 0x50, 0xc2, 0x6c, 0x9c, 0xd0, 0xd8, 0x9d], []⟩)
      (encodeFrame 7 [0, 0, 0, 0, 0, 0, 0, 0, 97, 98, 99])).1 ∧
    hashPiece [97, 98, 99] =
      (pieceHashesOf ⟨3, [120], 1,
        [0xa9, 0x99, 0x3e, 0x36, 0x47, 0x06, 0x81, 0x6a, 0xba, 0x3e,
         0x25, 0x71, 0x78, 0x50, 0xc2, 0x6c, 0x9c, 0xd0, 0xd8, 0x9d], []⟩).getD 0 [] := by
  refine ⟨by decide, ?_⟩
  exact (c1_delivered_results_verified
    ⟨3, [120], 1,
      [0xa9, 0x99, 0x3e, 0x36, 0x47, 0x06, 0x81, 0x6a, 0xba, 0x3e,
       0x25, 0x71, 0x78, 0x50, 0xc2, 0x6c, 0x9c, 0xd0, 0xd8, 0x9d], []⟩
    [128] (encodeFrame 7 [0, 0, 0, 0, 0, 0, 0, 0, 97, 98, 99]) 3
    ⟨0, [97, 98, 99]⟩ (by decide)).2

/-! ## C5 (amended): skip on missing piece; bounded retry with backoff -/

/-- Backoff durations of the retry loop: at most `rem − 1` sleeps, the
`j`-th (0-based, counting from attempt number `attempt`) lasting
`(attempt + j + 1) · 100` ms. -/
theorem retryAux_backoffs (work : PieceWork) :
    ∀ (rem attempt : Nat) (stream : List Nat),
      (retryAux work attempt rem stream).2.2.length ≤ rem - 1 ∧
      ∀ j < (retryAux work attempt rem stream).2.2.length,
        (retryAux work attempt rem stream).2.2.getD j 0 = (attempt + j + 1) * 100 := by
  intro rem
  induction rem with
  | zero =>
    intro attempt stream
    simp [retryAux]
  | succ rem ih =>
    intro attempt stream
    rw [retryAux]
    rcases hgp : getPiece stream work.hash work.length work.index with ⟨res, stream1⟩
    cases res with
    | some piece => simp
    | none =>
      dsimp only
      by_cases hrem : rem ≠ 0
      · rw [if_pos hrem]
        rcases hr : retryAux work (attempt + 1) rem stream1 with ⟨res2, stream2, bk⟩
        have hbk := ih (attempt + 1) stream1
        rw [hr] at hbk
        dsimp only at hbk ⊢
        constructor
        · simp only [List.length_cons]
          omega
        · intro j hj
          cases j with
          | zero => simp
          | succ j =>
            simp only [List.length_cons] at hj
            simp only [List.getD_cons_succ]
            rw [hbk.2 j (by omega)]
            ring_nf
      · rw [if_neg hrem]
        simp

/-- The worker never re-offers anything to the queue: the requeued-items
component is empty on every path (the queue channel is receive-only in the
worker). -/
theorem downloadLoop_requeued_nil (maxRetries : Nat) (bf : List Nat) :
    ∀ (queue : List PieceWork) (stream : List Nat),
      (downloadLoop maxRetries bf queue stream).2.2.1 = [] := by
  intro queue
  induction queue with
  | nil => intro stream; rfl
  | cons w queue ih =>
    intro stream
    rw [downloadLoop]
    by_cases hbf : hasPiece bf w.index = false
    · rw [if_pos hbf]
      exact ih stream
    · rw [if_neg hbf]
      rcases hdp : downloadPieceWithRetry maxRetries w stream with ⟨res, stream1, bk⟩
      cases res with
      | some piece =>
        dsimp only
        rcases hdl : downloadLoop maxRetries bf queue stream1
          with ⟨results, errs, rq, stream2⟩
        have := ih stream1
        rw [hdl] at this
        exact this
      | none =>
        dsimp only
        rcases hdl : downloadLoop maxRetries bf queue stream1
          with ⟨results, errs, rq, stream2⟩
        have := ih stream1
        rw [hdl] at this
        exact this

/-- C5 (amended): a dequeued item whose piece the peer's bitfield lacks is
skipped outright — the loop continues with the rest of the queue and the
item is neither re-offered (the worker's queue side is receive-only, and
the requeued component is empty on every path) nor reported; a transient
`get_piece` failure is retried on the same peer up to `max_retries` total
attempts with linear backoff `(attempt+1)·100 ms` between consecutive
attempts (at most `max_retries − 1` sleeps), after which the item is
reported on the errors channel and not re-queued. -/
theorem c5_skip_and_retry :
    (∀ (maxRetries : Nat) (bf : List Nat) (w : PieceWork)
       (queue : List PieceWork) (stream : List Nat),
      hasPiece bf w.index = false →
      downloadLoop maxRetries bf (w :: queue) stream
        = downloadLoop maxRetries bf queue stream) ∧
    (∀ (maxRetries : Nat) (w : PieceWork) (stream : List Nat),
      (downloadPieceWithRetry maxRetries w stream).2.2.length ≤ maxRetries - 1 ∧
      ∀ j < (downloadPieceWithRetry maxRetries w stream).2.2.length,
        (downloadPieceWithRetry maxRetries w stream).2.2.getD j 0
          = (j + 1) * 100) ∧
    (∀ (maxRetries : Nat) (bf : List Nat) (w : PieceWork)
       (queue : List PieceWork) (stream : List Nat),
      hasPiece bf w.index = true →
      (downloadPieceWithRetry maxRetries w stream).1 = none →
      (⟨w.index⟩ : WorkerError)
        ∈ (downloadLoop maxRetries bf (w :: queue) stream).2.1) ∧
    (∀ (maxRetries : Nat) (bf : List Nat) (queue : List PieceWork)
       (stream : List Nat),
      (downloadLoop maxRetries bf queue stream).2.2.1 = []) := by
  refine ⟨?_, ?_, ?_, fun maxRetries bf => downloadLoop_requeued_nil maxRetries bf⟩
  · intro maxRetries bf w queue stream h
    rw [downloadLoop, if_pos h]
  · intro maxRetries w stream
    have h := retryAux_backoffs w maxRetries 0 stream
    simpa [downloadPieceWithRetry] using h
  · intro maxRetries bf w queue stream hbf hfail
    rw [downloadLoop, if_neg (by rw [hbf]; simp)]
    rcases hdp : downloadPieceWithRetry maxRetries w stream with ⟨res, stream1, bk⟩
    rw [hdp] at hfail
    dsimp only at hfail
    subst hfail
    dsimp only
    rcases hdl : downloadLoop maxRetries bf queue stream1
      with ⟨results, errs, rq, stream2⟩
    exact List.mem_cons_self _ _

/-- C5 witness: concrete instances of each conjunct: the skip equation with
bitfield `0x00`; the backoff list of a 3-attempt failure run on an empty
stream is `[100, 200]`; the failure on piece 0 with bitfield `0x80` is
reported on the errors channel; and nothing is ever re-queued. -/
theorem c5_skip_and_retry_witness :
    downloadLoop 3 [0] [⟨0, [], 1⟩] [] = downloadLoop 3 [0] [] [] ∧
    (downloadPieceWithRetry 3 ⟨0, [], 1⟩ []).2.2.getD 0 0 = 100 ∧
    (⟨0⟩ : WorkerError) ∈ (downloadLoop 3 [128] [⟨0, [], 1⟩] []).2.1 ∧
    (downloadLoop 3 [128] [⟨0, [], 1⟩] []).2.2.1 = [] := by
  refine ⟨?_, ?_, ?_, ?_⟩
  · exact c5_skip_and_retry.1 3 [0] ⟨0, [], 1⟩ [] [] (by decide)
  · exact (c5_skip_and_retry.2.1 3 ⟨0, [], 1⟩ []).2 0 (by decide)
  · exact c5_skip_and_retry.2.2.1 3 [128] ⟨0, [], 1⟩ [] [] (by decide) (by decide)
  · exact c5_skip_and_retry.2.2.2 3 [128] [⟨0, [], 1⟩] []

/-! ## C10: magnet infohash length is not validated -/

/-- Every byte of a hex-decodable string is a hex digit. -/
theorem hexDecode_chars :
    ∀ (s bs : List Nat), hexDecode s = some bs → ∀ c ∈ s, (hexDigit c).isSome
  | [], _, _, c, hc => by simp at hc
  | [_], _, h, c, hc => by simp [hexDecode] at h
  | a :: b :: rest, bs, h, c, hc => by
    rw [hexDecode] at h
    cases ha : hexDigit a with
    | none => rw [ha] at h; dsimp only at h; simp at h
    | some va =>
      rw [ha] at h
      cases hb : hexDigit b with
      | none => rw [hb] at h; dsimp only at h; simp at h
      | some vb =>
        rw [hb] at h
        cases hr : hexDecode rest with
        | none => rw [hr] at h; dsimp only at h; simp at h
        | some r =>
          simp only [List.mem_cons] at hc
          rcases hc with hc | hc | hc
          · subst hc; rw [ha]; rfl
          · subst hc; rw [hb]; rfl
          · exact hexDecode_chars rest r hr c hc

/-- Hex decoding halves the length. -/
theorem hexDecode_length :
    ∀ (s bs : List Nat), hexDecode s = some bs → 2 * bs.length = s.length
  | [], bs, h => by
    simp only [hexDecode, Option.some_inj] at h
    simp [← h]
  | [_], _, h => by simp [hexDecode] at h
  | a :: b :: rest, bs, h => by
    rw [hexDecode] at h
    cases ha : hexDigit a with
    | none => rw [ha] at h; dsimp only at h; simp at h
    | some va =>
      rw [ha] at h
      cases hb : hexDigit b with
      | none => rw [hb] at h; dsimp only at h; simp at h
      | some vb =>
        rw [hb] at h
        cases hr : hexDecode rest with
        | none => rw [hr] at h; dsimp only at h; simp at h
        | some r =>
          rw [hr] at h
          dsimp only at h
          simp only [Option.some_inj] at h
          have := hexDecode_length rest r hr
          simp only [← h, List.length_cons]
          omega

/-- A hex digit is never `'u'` (117), the first byte of `urn:btih:`. -/
theorem hexDigit_ne_u (c : Nat) (h : (hexDigit c).isSome) : c ≠ 117 := by
  intro hc
  subst hc
  simp [hexDigit] at h

/-- The `ReplaceAll` scan leaves a string of hex digits unchanged: the
pattern `urn:btih:` starts with `'u'`, which no hex digit matches. -/
theorem replaceAllBtihAux_hex :
    ∀ (fuel : Nat) (s : List Nat), (∀ c ∈ s, (hexDigit c).isSome) →
      replaceAllBtihAux fuel s = s := by
  intro fuel
  induction fuel with
  | zero => intro s _; rfl
  | succ fuel ih =>
    intro s hs
    match s with
    | [] => rfl
    | c :: rest =>
      have hc := hexDigit_ne_u c (hs c (List.mem_cons_self c rest))
      have h117 : (117 == c) = false := beq_eq_false_iff_ne.mpr (Ne.symm hc)
      have hpre : btihPat.isPrefixOf (c :: rest) = false := by
        simp only [btihPat, List.isPrefixOf, h117, Bool.false_and]
      rw [replaceAllBtihAux, if_neg (by rw [hpre]; simp)]
      rw [ih rest (fun x hx => hs x (List.mem_cons_of_mem c hx))]

/-- `ReplaceAll` on `urn:btih:` followed by hex digits strips exactly the
prefix. -/
theorem replaceAllBtih_append (s : List Nat)
    (hs : ∀ c ∈ s, (hexDigit c).isSome) :
    replaceAllBtih (btihPat ++ s) = s := by
  have hshape : btihPat ++ s
      = 117 :: (114 :: 110 :: 58 :: 98 :: 116 :: 105 :: 104 :: 58 :: s) := by
    simp [btihPat]
  rw [replaceAllBtih, hshape]
  rw [show (117 :: (114 :: 110 :: 58 :: 98 :: 116 :: 105 :: 104 :: 58 :: s)).length
      = (8 + s.length) + 1 by simp; omega]
  rw [replaceAllBtihAux, if_pos (by simp [btihPat, List.isPrefixOf])]
  simp only [List.drop_succ_cons, List.drop_zero]
  exact replaceAllBtihAux_hex (8 + s.length) s hs

/-- C10: `DeserializeMagnet` does no length validation on the infohash
digest: with `tr` present and `xt = urn:btih:<hex>` where `<hex>` is
hex-decodable and shorter than 40 characters, it returns a `MagnetLink`
with no error whose 20-byte `InfoHash` is the decoded bytes (fewer than 20)
followed by zero padding at the end. -/
theorem c10_magnet_short_hash_padded (tr s bs : List Nat)
    (hs : hexDecode s = some bs) (hlen : s.length < 40) :
    deserializeMagnet tr (btihPat ++ s)
      = some ⟨tr, bs ++ List.replicate (20 - bs.length) 0, s⟩ ∧
    bs.length < 20 ∧
    (bs ++ List.replicate (20 - bs.length) 0).length = 20 := by
  have hchars := hexDecode_chars s bs hs
  have hrep := replaceAllBtih_append s hchars
  have hblen : 2 * bs.length = s.length := hexDecode_length s bs hs
  have hlt : bs.length < 20 := by omega
  have htake : bs.take 20 = bs := List.take_of_length_le (by omega)
  refine ⟨?_, hlt, by simp; omega⟩
  rw [deserializeMagnet, hrep, hs]
  dsimp only
  rw [htake]

/-- C10 witness: `xt = urn:btih:abcd` (4 hex characters): no error, and the
infohash is `[0xab, 0xcd]` followed by 18 zero bytes. -/
theorem c10_magnet_short_hash_padded_witness :
    hexDecode [97, 98, 99, 100] = some [171, 205] ∧
    deserializeMagnet [] (btihPat ++ [97, 98, 99, 100])
      = some ⟨[], [171, 205] ++ List.replicate 18 0, [97, 98, 99, 100]⟩ := by
  refine ⟨by decide, ?_⟩
  exact (c10_magnet_short_hash_padded [] [97, 98, 99, 100] [171, 205]
    (by decide) (by decide)).1

/-! ## C3: decimal representation lemmas -/

/-- `natDigitsAux` of 0 is empty whatever the fuel. -/
theorem natDigitsAux_zero : ∀ fuel, natDigitsAux fuel 0 = [] := by
  intro fuel
  cases fuel <;> simp [natDigitsAux]

/-- Every byte `natDigitsAux` emits is an ASCII digit. -/
theorem natDigitsAux_digits :
    ∀ (fuel n c : Nat), c ∈ natDigitsAux fuel n → 48 ≤ c ∧ c ≤ 57 := by
  intro fuel
  induction fuel with
  | zero => intro n c hc; simp [natDigitsAux] at hc
  | succ fuel ih =>
    intro n c hc
    rw [natDigitsAux] at hc
    by_cases hn : n = 0
    · simp [hn] at hc
    · rw [if_neg hn] at hc
      rcases List.mem_append.mp hc with hc | hc
      · exact ih (n / 10) c hc
      · simp only [List.mem_singleton] at hc
        have : n % 10 < 10 := Nat.mod_lt n (by omega)
        omega

/-- `natDigitsAux` with positive fuel and a positive number is non-empty. -/
theorem natDigitsAux_ne_nil (fuel n : Nat) (hn : n ≠ 0) :
    natDigitsAux (fuel + 1) n ≠ [] := by
  rw [natDigitsAux, if_neg hn]
  simp

/-- The leading digit `natDigitsAux` emits for a positive number is not
`'0'` (given enough fuel). -/
theorem natDigitsAux_head (fuel : Nat) :
    ∀ (n : Nat), n ≠ 0 → n ≤ fuel → (natDigitsAux fuel n).headD 0 ≠ 48 := by
  induction fuel with
  | zero => intro n hn hf; omega
  | succ fuel ih =>
    intro n hn hf
    rw [natDigitsAux, if_neg hn]
    by_cases h10 : n < 10
    · have : n / 10 = 0 := by omega
      rw [this, natDigitsAux_zero]
      have : n % 10 = n := by omega
      simp [this]
      omega
    · have hdiv : n / 10 ≠ 0 := by omega
      have hdivle : n / 10 ≤ fuel := by omega
      obtain ⟨f, hf1⟩ : ∃ f, fuel = f + 1 := ⟨fuel - 1, by omega⟩
      have hnonempty : natDigitsAux fuel (n / 10) ≠ [] := by
        rw [hf1]
        exact natDigitsAux_ne_nil f (n / 10) hdiv
      have hne := ih (n / 10) hdiv hdivle
      obtain ⟨d, ds, hds⟩ := List.exists_cons_of_ne_nil hnonempty
      rw [hds]
      rw [hds] at hne
      simpa using hne

/-- Reading the digits `natDigitsAux` emits (through the `Atoi` digit loop)
recovers the number, shifted into the accumulator. -/
theorem digitsValAux_natDigitsAux (fuel : Nat) :
    ∀ (n : Nat), n ≤ fuel → ∀ (acc : Nat) (tail : List Nat),
      digitsValAux (natDigitsAux fuel n ++ tail) acc
        = digitsValAux tail (acc * 10 ^ (natDigitsAux fuel n).length + n) := by
  induction fuel with
  | zero =>
    intro n hn acc tail
    have : n = 0 := by omega
    subst this
    simp [natDigitsAux]
  | succ fuel ih =>
    intro n hn acc tail
    rw [natDigitsAux]
    by_cases hzero : n = 0
    · subst hzero
      simp
    · rw [if_neg hzero]
      have hdivle : n / 10 ≤ fuel := by omega
      rw [List.append_assoc, ih (n / 10) hdivle acc]
      have hd : 48 ≤ 48 + n % 10 ∧ 48 + n % 10 ≤ 57 := by
        have : n % 10 < 10 := Nat.mod_lt n (by omega)
        omega
      rw [List.cons_append, digitsValAux, if_pos (by omega)]
      have harith : 10 * (acc * 10 ^ (natDigitsAux fuel (n / 10)).length + n / 10)
            + (48 + n % 10 - 48)
          = acc * 10 ^ (natDigitsAux fuel (n / 10) ++ [48 + n % 10]).length + n := by
        simp only [List.length_append, List.length_singleton]
        rw [pow_succ]
        have hnm : 10 * (n / 10) + n % 10 = n := by omega
        ring_nf
        omega
      rw [harith]
      simp

/-- `digitsVal` inverts `natRepr`. -/
theorem digitsVal_natRepr (n : Nat) : digitsVal (natRepr n) = some n := by
  rw [natRepr]
  by_cases hn : n = 0
  · subst hn
    simp [digitsVal, digitsValAux]
  · rw [if_neg hn]
    obtain ⟨fuel, hfuel⟩ : ∃ fuel, n = fuel + 1 := ⟨n - 1, by omega⟩
    have hnn : natDigitsAux n n ≠ [] := by
      rw [hfuel]
      exact natDigitsAux_ne_nil fuel (fuel + 1) (by omega)
    obtain ⟨d, ds, hds⟩ := List.exists_cons_of_ne_nil hnn
    rw [hds]
    have hdv : digitsVal (d :: ds) = digitsValAux (d :: ds) 0 := rfl
    rw [hdv]
    have := digitsValAux_natDigitsAux n n (Nat.le_refl n) 0 []
    rw [hds] at this
    simpa [digitsValAux] using this

/-- Every byte of `natRepr n` is an ASCII digit. -/
theorem natRepr_digits (n c : Nat) (hc : c ∈ natRepr n) : 48 ≤ c ∧ c ≤ 57 := by
  rw [natRepr] at hc
  by_cases hn : n = 0
  · simp [hn] at hc
    omega
  · rw [if_neg hn] at hc
    exact natDigitsAux_digits n n c hc

/-- `natRepr` is never empty. -/
theorem natRepr_ne_nil (n : Nat) : natRepr n ≠ [] := by
  rw [natRepr]
  by_cases hn : n = 0
  · simp [hn]
  · rw [if_neg hn]
    obtain ⟨fuel, hfuel⟩ : ∃ fuel, n = fuel + 1 := ⟨n - 1, by omega⟩
    rw [hfuel]
    exact natDigitsAux_ne_nil fuel _ (by omega)

/-- For a positive number, `natRepr` does not start with `'0'`. -/
theorem natRepr_head (n : Nat) (hn : n ≠ 0) : (natRepr n).headD 0 ≠ 48 := by
  rw [natRepr, if_neg hn]
  exact natDigitsAux_head n n hn (Nat.le_refl n)

/-- `goAtoi` inverts `intRepr`. -/
theorem goAtoi_intRepr (z : Int) : goAtoi (intRepr z) = some z := by
  rw [intRepr]
  by_cases hz : z < 0
  · rw [if_pos hz, goAtoi, if_neg (by omega), if_pos rfl, digitsVal_natRepr]
    simp only [Option.map_some']
    congr 1
    show -(z.natAbs : Int) = z
    omega
  · rw [if_neg hz]
    obtain ⟨c, rest, hcr⟩ := List.exists_cons_of_ne_nil (natRepr_ne_nil z.toNat)
    have hcd : 48 ≤ c ∧ c ≤ 57 :=
      natRepr_digits z.toNat c (by rw [hcr]; exact List.mem_cons_self c rest)
    rw [hcr, goAtoi, if_neg (by omega), if_neg (by omega), ← hcr, digitsVal_natRepr]
    simp only [Option.map_some']
    congr 1
    show (z.toNat : Int) = z
    omega

/-! ## C3: decoder-inverts-encoder lemmas for atoms -/

/-- The colon scan finds the colon the encoder wrote. -/
theorem splitAtColon_append (pre rest : List Nat) (h : ∀ c ∈ pre, c ≠ 58) :
    splitAtColon (pre ++ 58 :: rest) = some (pre, rest) := by
  induction pre with
  | nil => simp [splitAtColon]
  | cons c pre ih =>
    have hc : c ≠ 58 := h c (List.mem_cons_self c pre)
    rw [List.cons_append, splitAtColon, if_neg hc,
      ih (fun x hx => h x (List.mem_cons_of_mem c hx))]
    rfl

/-- The `'e'` scan finds the terminator the encoder wrote. -/
theorem splitAtE_append (pre rest : List Nat) (h : ∀ c ∈ pre, c ≠ 101) :
    splitAtE (pre ++ 101 :: rest) = some (pre, rest) := by
  induction pre with
  | nil => simp [splitAtE]
  | cons c pre ih =>
    have hc : c ≠ 101 := h c (List.mem_cons_self c pre)
    rw [List.cons_append, splitAtE, if_neg hc,
      ih (fun x hx => h x (List.mem_cons_of_mem c hx))]
    rfl

/-- `goAtoi` inverts `natRepr` (cast form of `goAtoi_intRepr`). -/
theorem goAtoi_natRepr (n : Nat) : goAtoi (natRepr n) = some (n : Int) := by
  have h := goAtoi_intRepr (n : Int)
  have heq : intRepr (n : Int) = natRepr n := by
    rw [intRepr, if_neg (by omega)]
    simp
  rwa [heq] at h

/-- `decodeString` inverts the encoder's `<len>:<bytes>` form and leaves the
trailing input untouched. -/
theorem decodeStringS_bstr (s rest : List Nat) :
    decodeStringS (bstr s ++ rest) = some (s, rest) := by
  have hsplit : splitAtColon (bstr s ++ rest)
      = some (natRepr s.length, s ++ rest) := by
    rw [bstr, List.append_assoc, List.cons_append]
    exact splitAtColon_append _ _
      (fun c hc => by have := natRepr_digits s.length c hc; omega)
  rw [decodeStringS, hsplit]
  dsimp only
  rw [goAtoi_natRepr]
  dsimp only
  rw [if_neg (by omega)]
  have htoNat : ((s.length : Int)).toNat = s.length := by omega
  rw [htoNat, if_neg (by simp)]
  rw [List.take_left, List.drop_left]

/-- `decodeInt` inverts the encoder's `i<decimal>e` form: the canonical
representation passes the leading-zero and `-0` checks. -/
theorem decodeIntS_intEnc (z : Int) (rest : List Nat) :
    decodeIntS (intEnc z ++ rest) = some (z, rest) := by
  have hdigits : ∀ c ∈ intRepr z, c ≠ 101 := by
    intro c hc
    rw [intRepr] at hc
    by_cases hz : z < 0
    · rw [if_pos hz] at hc
      rcases List.mem_cons.mp hc with hc | hc
      · omega
      · have := natRepr_digits z.natAbs c hc
        omega
    · rw [if_neg hz] at hc
      have := natRepr_digits z.toNat c hc
      omega
  have hsplit : splitAtE (intRepr z ++ 101 :: rest) = some (intRepr z, rest) :=
    splitAtE_append _ _ hdigits
  have hshape : intEnc z ++ rest = 105 :: (intRepr z ++ 101 :: rest) := by
    simp [intEnc]
  rw [hshape, decodeIntS, if_pos rfl, hsplit]
  dsimp only
  rw [if_neg ?hlead]
  case hlead =>
    intro ⟨hlen, hhead⟩
    rw [intRepr] at hlen hhead
    by_cases hz : z < 0
    · rw [if_pos hz] at hhead
      simp at hhead
    · rw [if_neg hz] at hlen hhead
      by_cases h0 : z.toNat = 0
      · rw [h0] at hlen
        simp [natRepr] at hlen
      · exact natRepr_head z.toNat h0 hhead
  rw [if_neg ?hneg0]
  case hneg0 =>
    intro hcon
    rw [intRepr] at hcon
    by_cases hz : z < 0
    · rw [if_pos hz] at hcon
      have : natRepr z.natAbs = [48] := by
        injection hcon
      have hhead := natRepr_head z.natAbs (by omega)
      rw [this] at hhead
      simp at hhead
    · rw [if_neg hz] at hcon
      have := natRepr_digits z.toNat 45
        (by rw [hcon]; exact List.mem_cons_self 45 [48])
      omega
  rw [goAtoi_intRepr]

/-! ## C3: decoder-inverts-encoder lemmas for values -/

/-- The dispatcher on an encoded byte string: a digit identifier, so
`decodeString`, then the UTF-8 presentation choice. -/
theorem decodeS_bstr (fuel : Nat) (s rest : List Nat) :
    decodeS (fuel + 1) (bstr s ++ rest)
      = some (if validUTF8 s then BVal.str s else BVal.bytes s, rest) := by
  obtain ⟨c, tail, hct⟩ := List.exists_cons_of_ne_nil (natRepr_ne_nil s.length)
  have hcd : 48 ≤ c ∧ c ≤ 57 :=
    natRepr_digits s.length c (by rw [hct]; exact List.mem_cons_self c tail)
  have hshape : bstr s ++ rest = c :: (tail ++ 58 :: (s ++ rest)) := by
    rw [bstr, hct]
    simp
  rw [hshape, decodeS, if_pos hcd, ← hshape, decodeStringS_bstr]
  rfl

/-- The dispatcher on an encoded integer: identifier `'i'`, so
`decodeInt`. -/
theorem decodeS_intEnc (fuel : Nat) (z : Int) (rest : List Nat) :
    decodeS (fuel + 1) (intEnc z ++ rest) = some (BVal.int z, rest) := by
  have hshape : intEnc z ++ rest = 105 :: (intRepr z ++ 101 :: rest) := by
    simp [intEnc]
  rw [hshape, decodeS, if_neg (by omega), if_pos rfl, ← hshape, decodeIntS_intEnc]
  rfl

/-- One iteration of the dictionary pair loop: parse the encoded key, parse
the value (given by hypothesis), insert, continue. -/
theorem decodePairsS_step (fuel : Nat) (k venc restS : List Nat) (v : BVal)
    (acc : List (List Nat × BVal))
    (hv : decodeS fuel (venc ++ restS) = some (v, restS)) :
    decodePairsS (fuel + 1) (bstr k ++ (venc ++ restS)) acc
      = decodePairsS fuel restS (mapInsert k v acc) := by
  obtain ⟨c, tail, hct⟩ := List.exists_cons_of_ne_nil (natRepr_ne_nil k.length)
  have hcd : 48 ≤ c ∧ c ≤ 57 :=
    natRepr_digits k.length c (by rw [hct]; exact List.mem_cons_self c tail)
  have hshape : bstr k ++ (venc ++ restS) = c :: (tail ++ 58 :: (k ++ (venc ++ restS))) := by
    rw [bstr, hct]
    simp
  rw [hshape, decodePairsS, if_neg (by omega), ← hshape, decodeStringS_bstr]
  dsimp only
  rw [hv]

/-- Closing a dictionary: the pair loop on `'e'`. -/
theorem decodePairsS_close (fuel : Nat) (rest : List Nat)
    (acc : List (List Nat × BVal)) :
    decodePairsS (fuel + 1) (101 :: rest) acc = some (BVal.dict acc, rest) := by
  rw [decodePairsS, if_pos rfl]

/-- Inserting a fresh key walks past a non-matching head entry. -/
theorem mapInsert_ne (k k1 : List Nat) (v v1 : BVal)
    (t : List (List Nat × BVal)) (h : k1 ≠ k) :
    mapInsert k v ((k1, v1) :: t) = (k1, v1) :: mapInsert k v t := by
  rw [mapInsert, if_neg h]

/-- Four insertions of distinct keys into the empty Go map, in order. -/
theorem mapInsert_four (k1 k2 k3 k4 : List Nat) (v1 v2 v3 v4 : BVal)
    (h12 : k1 ≠ k2) (h13 : k1 ≠ k3) (h14 : k1 ≠ k4)
    (h23 : k2 ≠ k3) (h24 : k2 ≠ k4) (h34 : k3 ≠ k4) :
    mapInsert k4 v4 (mapInsert k3 v3 (mapInsert k2 v2 (mapInsert k1 v1 [])))
      = [(k1, v1), (k2, v2), (k3, v3), (k4, v4)] := by
  rw [show mapInsert k1 v1 [] = [(k1, v1)] from rfl]
  rw [mapInsert_ne _ _ _ _ _ h12, show mapInsert k2 v2 [] = [(k2, v2)] from rfl]
  rw [mapInsert_ne _ _ _ _ _ h13, mapInsert_ne _ _ _ _ _ h23,
    show mapInsert k3 v3 [] = [(k3, v3)] from rfl]
  rw [mapInsert_ne _ _ _ _ _ h14, mapInsert_ne _ _ _ _ _ h24,
    mapInsert_ne _ _ _ _ _ h34, show mapInsert k4 v4 [] = [(k4, v4)] from rfl]

/-- `parsePath` inverts the decoder's string presentation of a path. -/
theorem parsePath_map (ps : List (List Nat)) :
    parsePath (ps.map BVal.str) = some ps := by
  induction ps with
  | nil => rfl
  | cons p ps ih =>
    rw [List.map_cons, parsePath, ih]
    rfl

/-- `parseFiles` inverts `fileVal`. -/
theorem parseFiles_fileVal (fs : List FileInfo) :
    parseFiles (fs.map fileVal) = some fs := by
  induction fs with
  | nil => rfl
  | cons f fs ih =>
    rw [List.map_cons, fileVal, parseFiles]
    have hlk : mapLookup keyLength
        [(keyLength, BVal.int f.length), (keyPath, BVal.list (f.path.map BVal.str))]
        = some (BVal.int f.length) := by
      rw [mapLookup, if_pos rfl]
    have hpk : mapLookup keyPath
        [(keyLength, BVal.int f.length), (keyPath, BVal.list (f.path.map BVal.str))]
        = some (BVal.list (f.path.map BVal.str)) := by
      rw [mapLookup, if_neg (by decide), mapLookup, if_pos rfl]
    rw [hlk, hpk]
    dsimp only
    rw [parsePath_map, ih]
    rfl

/-- The list-element loop over an encoded path: each component is a
byte-string the decoder presents as a Go string. -/
theorem decodeItemsS_path (ps : List (List Nat)) :
    ∀ (fuel : Nat) (rest : List Nat) (acc : List BVal),
      (∀ p ∈ ps, validUTF8 p = true) →
      decodeItemsS (fuel + ps.length + 1) ((ps.map bstr).flatten ++ 101 :: rest) acc
        = some (BVal.list (acc ++ ps.map BVal.str), rest) := by
  induction ps with
  | nil =>
    intro fuel rest acc _
    simp only [List.map_nil, List.flatten_nil, List.nil_append, List.length_nil,
      Nat.add_zero, List.append_nil]
    rw [decodeItemsS, if_pos rfl]
  | cons p ps ih =>
    intro fuel rest acc hval
    have harith : fuel + (p :: ps).length + 1 = (fuel + ps.length + 1) + 1 := by
      simp only [List.length_cons]
      omega
    rw [harith]
    have hshape : ((p :: ps).map bstr).flatten ++ 101 :: rest
        = bstr p ++ ((ps.map bstr).flatten ++ 101 :: rest) := by
      simp
    rw [hshape]
    obtain ⟨c, tail, hct⟩ := List.exists_cons_of_ne_nil (natRepr_ne_nil p.length)
    have hcd : 48 ≤ c ∧ c ≤ 57 :=
      natRepr_digits p.length c (by rw [hct]; exact List.mem_cons_self c tail)
    have hcons : bstr p ++ ((ps.map bstr).flatten ++ 101 :: rest)
        = c :: (tail ++ 58 :: (p ++ ((ps.map bstr).flatten ++ 101 :: rest))) := by
      rw [bstr, hct]
      simp
    rw [hcons, decodeItemsS, if_neg (by omega), ← hcons]
    obtain ⟨f1, hf1⟩ : ∃ f1, fuel + ps.length + 1 = f1 + 1 :=
      ⟨fuel + ps.length, rfl⟩
    rw [hf1, decodeS_bstr f1 p]
    rw [if_pos (hval p (List.mem_cons_self p ps))]
    dsimp only
    rw [← hf1, ih fuel rest (acc ++ [BVal.str p])
      (fun x hx => hval x (List.mem_cons_of_mem p hx))]
    simp

/-- The dispatcher on an encoded path list: identifier `'l'`, then the
element loop. -/
theorem decodeS_pathList (ps : List (List Nat)) (fuel : Nat) (rest : List Nat)
    (hval : ∀ p ∈ ps, validUTF8 p = true) :
    decodeS (fuel + ps.length + 2)
        (108 :: ((ps.map bstr).flatten ++ [101]) ++ rest)
      = some (BVal.list (ps.map BVal.str), rest) := by
  have h2 : fuel + ps.length + 2 = (fuel + ps.length + 1) + 1 := by omega
  rw [h2, List.cons_append, decodeS, if_neg (by omega), if_neg (by omega),
    if_pos rfl]
  have hshape : ((ps.map bstr).flatten ++ [101]) ++ rest
      = (ps.map bstr).flatten ++ 101 :: rest := by
    simp
  rw [hshape, decodeItemsS_path ps fuel rest [] hval]
  simp

/-- The dispatcher on one encoded file entry: identifier `'d'`, a `length`
pair, a `path` pair, and the closing `'e'`, decoding to `fileVal`. -/
theorem decodeS_serializeFile (f : FileInfo) (fuel : Nat) (rest : List Nat)
    (hval : ∀ p ∈ f.path, validUTF8 p = true) :
    decodeS (fuel + f.path.length + 5) (serializeFile f ++ rest)
      = some (fileVal f, rest) := by
  have h5 : fuel + f.path.length + 5 = (fuel + f.path.length + 4) + 1 := by omega
  have hshape : serializeFile f ++ rest
      = 100 :: (bstr keyLength ++ (intEnc f.length ++ (bstr keyPath
        ++ (108 :: ((f.path.map bstr).flatten ++ [101]) ++ (101 :: rest))))) := by
    rw [serializeFile]
    simp
  rw [h5, hshape, decodeS, if_neg (by omega), if_neg (by omega),
    if_neg (by omega), if_pos rfl]
  have h4 : fuel + f.path.length + 4 = (fuel + f.path.length + 3) + 1 := by omega
  rw [h4, decodePairsS_step (fuel + f.path.length + 3) keyLength (intEnc f.length) _
    (BVal.int f.length) []
    (by
      have h3 : fuel + f.path.length + 3 = (fuel + f.path.length + 2) + 1 := by omega
      rw [h3]
      exact decodeS_intEnc _ f.length _)]
  have h3 : fuel + f.path.length + 3 = (fuel + f.path.length + 2) + 1 := by omega
  rw [h3, decodePairsS_step (fuel + f.path.length + 2) keyPath
    (108 :: ((f.path.map bstr).flatten ++ [101])) (101 :: rest)
    (BVal.list (f.path.map BVal.str)) _
    (by
      have harr : fuel + f.path.length + 2 = fuel + f.path.length + 2 := rfl
      exact decodeS_pathList f.path fuel (101 :: rest) hval)]
  have h2 : fuel + f.path.length + 2 = (fuel + f.path.length + 1) + 1 := by omega
  rw [h2, decodePairsS_close]
  rw [mapInsert, mapInsert_ne _ _ _ _ _ (by decide), mapInsert]
  rfl

/-- The list-element loop over the encoded `files` entries. -/
theorem decodeItemsS_files (fs : List FileInfo) :
    ∀ (fuel : Nat) (rest : List Nat) (acc : List BVal),
      (∀ f ∈ fs, ∀ p ∈ f.path, validUTF8 p = true) →
      decodeItemsS (fuel + filesFuel fs)
          ((fs.map serializeFile).flatten ++ 101 :: rest) acc
        = some (BVal.list (acc ++ fs.map fileVal), rest) := by
  induction fs with
  | nil =>
    intro fuel rest acc _
    simp only [List.map_nil, List.flatten_nil, List.nil_append, filesFuel,
      List.append_nil]
    rw [decodeItemsS, if_pos rfl]
  | cons f fs ih =>
    intro fuel rest acc hval
    have harith : fuel + filesFuel (f :: fs)
        = (fuel + filesFuel fs + f.path.length + 4) + 1 := by
      rw [filesFuel]
      omega
    rw [harith]
    have hshape : ((f :: fs).map serializeFile).flatten ++ 101 :: rest
        = serializeFile f ++ ((fs.map serializeFile).flatten ++ 101 :: rest) := by
      simp
    rw [hshape]
    have hhead : serializeFile f ++ ((fs.map serializeFile).flatten ++ 101 :: rest)
        = 100 :: ((bstr keyLength ++ intEnc f.length ++ bstr keyPath
          ++ 108 :: (f.path.map bstr).flatten ++ [101, 101])
          ++ ((fs.map serializeFile).flatten ++ 101 :: rest)) := by
      rw [serializeFile]
      simp
    rw [hhead, decodeItemsS, if_neg (by omega), ← hhead]
    have hone : 1 ≤ filesFuel fs := by
      cases fs
      · simp [filesFuel]
      · simp only [filesFuel]
        omega
    have hfile : fuel + filesFuel fs + f.path.length + 4
        = (fuel + (filesFuel fs - 1)) + f.path.length + 5 := by
      omega
    rw [hfile, decodeS_serializeFile f (fuel + (filesFuel fs - 1)) _
      (hval f (List.mem_cons_self f fs))]
    dsimp only
    have hback : (fuel + (filesFuel fs - 1)) + f.path.length + 5
        = (fuel + f.path.length + 4) + filesFuel fs := by
      omega
    rw [hback, ih (fuel + f.path.length + 4) rest (acc ++ [fileVal f])
      (fun x hx => hval x (List.mem_cons_of_mem f hx))]
    simp

/-- The dispatcher on an encoded `files` list: identifier `'l'`, then the
element loop over the file entries. -/
theorem decodeS_filesList (fs : List FileInfo) (fuel : Nat) (rest : List Nat)
    (hpaths : ∀ f ∈ fs, ∀ p ∈ f.path, validUTF8 p = true) :
    decodeS ((fuel + filesFuel fs) + 1)
        (108 :: ((fs.map serializeFile).flatten ++ [101]) ++ rest)
      = some (BVal.list (fs.map fileVal), rest) := by
  rw [List.cons_append, decodeS, if_neg (by omega), if_neg (by omega), if_pos rfl]
  have hshape : ((fs.map serializeFile).flatten ++ [101]) ++ rest
      = (fs.map serializeFile).flatten ++ 101 :: rest := by
    simp
  rw [hshape, decodeItemsS_files fs fuel rest [] hpaths]
  simp

/-- Decoding the canonical encoding of a single-file `Info` yields exactly
the four-entry dictionary in encoding order. -/
theorem decodeS_serializeInfo_single (i : Info) (fuel : Nat) (rest : List Nat)
    (hsingle : i.files = [])
    (hname : validUTF8 i.name = true) (hpieces : validUTF8 i.pieces = false) :
    decodeS (fuel + 6) (serializeInfo i ++ rest)
      = some (BVal.dict
          [(keyLength, BVal.int i.length), (keyName, BVal.str i.name),
           (keyPieceLength, BVal.int i.pieceLength),
           (keyPieces, BVal.bytes i.pieces)], rest) := by
  have hsf : isSingleFile i = true := by
    simp [isSingleFile, hsingle]
  have hshape : serializeInfo i ++ rest
      = 100 :: (bstr keyLength ++ (intEnc i.length ++ (bstr keyName ++ (bstr i.name
        ++ (bstr keyPieceLength ++ (intEnc i.pieceLength ++ (bstr keyPieces
        ++ (bstr i.pieces ++ (101 :: rest))))))))) := by
    rw [serializeInfo, if_pos hsf]
    simp
  have h6 : fuel + 6 = (fuel + 5) + 1 := by omega
  rw [h6, hshape, decodeS, if_neg (by omega), if_neg (by omega),
    if_neg (by omega), if_pos rfl]
  have h5 : fuel + 5 = (fuel + 4) + 1 := by omega
  rw [h5, decodePairsS_step (fuel + 4) keyLength (intEnc i.length) _
    (BVal.int i.length) []
    (by
      have h4 : fuel + 4 = (fuel + 3) + 1 := by omega
      rw [h4]
      exact decodeS_intEnc _ _ _)]
  have h4 : fuel + 4 = (fuel + 3) + 1 := by omega
  rw [h4, decodePairsS_step (fuel + 3) keyName (bstr i.name) _
    (BVal.str i.name) _
    (by
      have h3 : fuel + 3 = (fuel + 2) + 1 := by omega
      rw [h3, decodeS_bstr, if_pos hname])]
  have h3 : fuel + 3 = (fuel + 2) + 1 := by omega
  rw [h3, decodePairsS_step (fuel + 2) keyPieceLength (intEnc i.pieceLength) _
    (BVal.int i.pieceLength) _
    (by
      have h2 : fuel + 2 = (fuel + 1) + 1 := by omega
      rw [h2]
      exact decodeS_intEnc _ _ _)]
  have h2 : fuel + 2 = (fuel + 1) + 1 := by omega
  rw [h2, decodePairsS_step (fuel + 1) keyPieces (bstr i.pieces) _
    (BVal.bytes i.pieces) _
    (by
      have h1 : fuel + 1 = fuel + 1 := rfl
      rw [decodeS_bstr, hpieces]
      simp)]
  rw [decodePairsS_close]
  rw [mapInsert_four _ _ _ _ _ _ _ _ (by decide) (by decide) (by decide)
    (by decide) (by decide) (by decide)]

/-- Decoding the canonical encoding of a multi-file `Info` yields exactly
the four-entry dictionary in encoding order (no `length` key). -/
theorem decodeS_serializeInfo_multi (i : Info) (fuel : Nat) (rest : List Nat)
    (hmulti : i.files ≠ [])
    (hname : validUTF8 i.name = true) (hpieces : validUTF8 i.pieces = false)
    (hpaths : ∀ f ∈ i.files, ∀ p ∈ f.path, validUTF8 p = true) :
    decodeS (fuel + filesFuel i.files + 7) (serializeInfo i ++ rest)
      = some (BVal.dict
          [(keyFiles, BVal.list (i.files.map fileVal)),
           (keyName, BVal.str i.name),
           (keyPieceLength, BVal.int i.pieceLength),
           (keyPieces, BVal.bytes i.pieces)], rest) := by
  have hsf : ¬ (isSingleFile i = true) := by
    simp [isSingleFile, hmulti]
  have hshape : serializeInfo i ++ rest
      = 100 :: (bstr keyFiles
        ++ ((108 :: ((i.files.map serializeFile).flatten ++ [101]))
          ++ (bstr keyName ++ (bstr i.name
            ++ (bstr keyPieceLength ++ (intEnc i.pieceLength ++ (bstr keyPieces
              ++ (bstr i.pieces ++ (101 :: rest))))))))) := by
    rw [serializeInfo, if_neg hsf]
    simp
  have h7 : fuel + filesFuel i.files + 7 = (fuel + filesFuel i.files + 6) + 1 := by
    omega
  rw [h7, hshape, decodeS, if_neg (by omega), if_neg (by omega),
    if_neg (by omega), if_pos rfl]
  have h6 : fuel + filesFuel i.files + 6 = (fuel + filesFuel i.files + 5) + 1 := by
    omega
  rw [h6, decodePairsS_step (fuel + filesFuel i.files + 5) keyFiles
    (108 :: ((i.files.map serializeFile).flatten ++ [101])) _
    (BVal.list (i.files.map fileVal)) []
    (by
      have h5 : fuel + filesFuel i.files + 5 = ((fuel + 4) + filesFuel i.files) + 1 := by
        omega
      rw [h5]
      exact decodeS_filesList i.files (fuel + 4) _ hpaths)]
  have h5 : fuel + filesFuel i.files + 5 = (fuel + filesFuel i.files + 4) + 1 := by
    omega
  rw [h5, decodePairsS_step (fuel + filesFuel i.files + 4) keyName (bstr i.name) _
    (BVal.str i.name) _
    (by
      have h4 : fuel + filesFuel i.files + 4 = (fuel + filesFuel i.files + 3) + 1 := by
        omega
      rw [h4, decodeS_bstr, if_pos hname])]
  have h4 : fuel + filesFuel i.files + 4 = (fuel + filesFuel i.files + 3) + 1 := by
    omega
  rw [h4, decodePairsS_step (fuel + filesFuel i.files + 3) keyPieceLength
    (intEnc i.pieceLength) _ (BVal.int i.pieceLength) _
    (by
      have h3 : fuel + filesFuel i.files + 3 = (fuel + filesFuel i.files + 2) + 1 := by
        omega
      rw [h3]
      exact decodeS_intEnc _ _ _)]
  have h3 : fuel + filesFuel i.files + 3 = (fuel + filesFuel i.files + 2) + 1 := by
    omega
  rw [h3, decodePairsS_step (fuel + filesFuel i.files + 2) keyPieces
    (bstr i.pieces) _ (BVal.bytes i.pieces) _
    (by
      rw [decodeS_bstr, hpieces]
      simp)]
  have h2 : fuel + filesFuel i.files + 2 = (fuel + filesFuel i.files + 1) + 1 := by
    omega
  rw [h2, decodePairsS_close]
  rw [mapInsert_four _ _ _ _ _ _ _ _ (by decide) (by decide) (by decide)
    (by decide) (by decide) (by decide)]

/-- `newInfo` on the decoded single-file dictionary. -/
theorem newInfo_single (len : Int) (name : List Nat) (pl : Int)
    (pieces : List Nat) :
    newInfo [(keyLength, BVal.int len), (keyName, BVal.str name),
             (keyPieceLength, BVal.int pl), (keyPieces, BVal.bytes pieces)]
      = some ⟨len, name, pl, pieces, []⟩ := by
  have h1 : mapLookup keyName
      [(keyLength, BVal.int len), (keyName, BVal.str name),
       (keyPieceLength, BVal.int pl), (keyPieces, BVal.bytes pieces)]
      = some (BVal.str name) := by
    rw [mapLookup, if_neg (by decide), mapLookup, if_pos rfl]
  have h2 : mapLookup keyPieceLength
      [(keyLength, BVal.int len), (keyName, BVal.str name),
       (keyPieceLength, BVal.int pl), (keyPieces, BVal.bytes pieces)]
      = some (BVal.int pl) := by
    rw [mapLookup, if_neg (by decide), mapLookup, if_neg (by decide),
      mapLookup, if_pos rfl]
  have h3 : mapLookup keyPieces
      [(keyLength, BVal.int len), (keyName, BVal.str name),
       (keyPieceLength, BVal.int pl), (keyPieces, BVal.bytes pieces)]
      = some (BVal.bytes pieces) := by
    rw [mapLookup, if_neg (by decide), mapLookup, if_neg (by decide),
      mapLookup, if_neg (by decide), mapLookup, if_pos rfl]
  have h4 : mapLookup keyLength
      [(keyLength, BVal.int len), (keyName, BVal.str name),
       (keyPieceLength, BVal.int pl), (keyPieces, BVal.bytes pieces)]
      = some (BVal.int len) := by
    rw [mapLookup, if_pos rfl]
  rw [newInfo, h1, h2, h3, h4]

/-- `newInfo` on the decoded multi-file dictionary: no `length` key, so the
`files` are parsed and the length recomputed as their sum. -/
theorem newInfo_multi (fs : List FileInfo) (name : List Nat) (pl : Int)
    (pieces : List Nat) :
    newInfo [(keyFiles, BVal.list (fs.map fileVal)), (keyName, BVal.str name),
             (keyPieceLength, BVal.int pl), (keyPieces, BVal.bytes pieces)]
      = some ⟨sumFileLengths fs, name, pl, pieces, fs⟩ := by
  have h1 : mapLookup keyName
      [(keyFiles, BVal.list (fs.map fileVal)), (keyName, BVal.str name),
       (keyPieceLength, BVal.int pl), (keyPieces, BVal.bytes pieces)]
      = some (BVal.str name) := by
    rw [mapLookup, if_neg (by decide), mapLookup, if_pos rfl]
  have h2 : mapLookup keyPieceLength
      [(keyFiles, BVal.list (fs.map fileVal)), (keyName, BVal.str name),
       (keyPieceLength, BVal.int pl), (keyPieces, BVal.bytes pieces)]
      = some (BVal.int pl) := by
    rw [mapLookup, if_neg (by decide), mapLookup, if_neg (by decide),
      mapLookup, if_pos rfl]
  have h3 : mapLookup keyPieces
      [(keyFiles, BVal.list (fs.map fileVal)), (keyName, BVal.str name),
       (keyPieceLength, BVal.int pl), (keyPieces, BVal.bytes pieces)]
      = some (BVal.bytes pieces) := by
    rw [mapLookup, if_neg (by decide), mapLookup, if_neg (by decide),
      mapLookup, if_neg (by decide), mapLookup, if_pos rfl]
  have h4 : mapLookup keyLength
      [(keyFiles, BVal.list (fs.map fileVal)), (keyName, BVal.str name),
       (keyPieceLength, BVal.int pl), (keyPieces, BVal.bytes pieces)]
      = none := by
    rw [mapLookup, if_neg (by decide), mapLookup, if_neg (by decide),
      mapLookup, if_neg (by decide), mapLookup, if_neg (by decide), mapLookup]
  have h5 : mapLookup keyFiles
      [(keyFiles, BVal.list (fs.map fileVal)), (keyName, BVal.str name),
       (keyPieceLength, BVal.int pl), (keyPieces, BVal.bytes pieces)]
      = some (BVal.list (fs.map fileVal)) := by
    rw [mapLookup, if_pos rfl]
  rw [newInfo, h1, h2, h3, h4, h5]
  dsimp only
  rw [parseFiles_fileVal]
  rfl

/-- A successful decode stays successful with one more unit of fuel, for
each of the three mutually recursive decoder loops. -/
theorem decode_mono_succ :
    ∀ fuel : Nat,
      (∀ b r, decodeS fuel b = some r → decodeS (fuel + 1) b = some r) ∧
      (∀ b acc r, decodeItemsS fuel b acc = some r →
        decodeItemsS (fuel + 1) b acc = some r) ∧
      (∀ b acc r, decodePairsS fuel b acc = some r →
        decodePairsS (fuel + 1) b acc = some r) := by
  intro fuel
  induction fuel with
  | zero =>
    refine ⟨?_, ?_, ?_⟩
    · intro b r h
      simp [decodeS] at h
    · intro b acc r h
      simp [decodeItemsS] at h
    · intro b acc r h
      simp [decodePairsS] at h
  | succ fuel ih =>
    obtain ⟨ihS, ihI, ihP⟩ := ih
    refine ⟨?_, ?_, ?_⟩
    · intro b r h
      cases b with
      | nil => simp [decodeS] at h
      | cons c rest =>
        rw [decodeS] at h ⊢
        by_cases hd : 48 ≤ c ∧ c ≤ 57
        · rw [if_pos hd] at h ⊢
          exact h
        · rw [if_neg hd] at h ⊢
          by_cases hi : c = 105
          · rw [if_pos hi] at h ⊢
            exact h
          · rw [if_neg hi] at h ⊢
            by_cases hl : c = 108
            · rw [if_pos hl] at h ⊢
              exact ihI rest [] r h
            · rw [if_neg hl] at h ⊢
              by_cases hdd : c = 100
              · rw [if_pos hdd] at h ⊢
                exact ihP rest [] r h
              · rw [if_neg hdd] at h ⊢
                exact h
    · intro b acc r h
      cases b with
      | nil => simp [decodeItemsS] at h
      | cons c rest =>
        rw [decodeItemsS] at h ⊢
        by_cases he : c = 101
        · rw [if_pos he] at h ⊢
          exact h
        · rw [if_neg he] at h ⊢
          rcases hx : decodeS fuel (c :: rest) with _ | ⟨v, r1⟩
          · rw [hx] at h
            simp at h
          · rw [hx] at h
            dsimp only at h
            rw [ihS (c :: rest) (v, r1) hx]
            dsimp only
            exact ihI r1 (acc ++ [v]) r h
    · intro b acc r h
      cases b with
      | nil => simp [decodePairsS] at h
      | cons c rest =>
        rw [decodePairsS] at h ⊢
        by_cases he : c = 101
        · rw [if_pos he] at h ⊢
          exact h
        · rw [if_neg he] at h ⊢
          rcases hk : decodeStringS (c :: rest) with _ | ⟨k, r1⟩
          · rw [hk] at h
            simp at h
          · rw [hk] at h
            dsimp only at h ⊢
            rcases hx : decodeS fuel r1 with _ | ⟨v, r2⟩
            · rw [hx] at h
              simp at h
            · rw [hx] at h
              dsimp only at h
              rw [ihS r1 (v, r2) hx]
              dsimp only
              exact ihP r2 (mapInsert k v acc) r h

/-- Fuel monotonicity of the dispatcher. -/
theorem decodeS_mono (f f' : Nat) (hle : f ≤ f') (b : List Nat)
    (r : BVal × List Nat) (h : decodeS f b = some r) : decodeS f' b = some r := by
  induction f' with
  | zero =>
    have : f = 0 := by omega
    subst this
    exact h
  | succ f' ihf =>
    by_cases hf : f = f' + 1
    · subst hf
      exact h
    · exact (decode_mono_succ f').1 b r (ihf (by omega))

/-- A byte-string encoding is at least two bytes longer than its payload. -/
theorem bstr_length_ge (s : List Nat) : s.length + 2 ≤ (bstr s).length := by
  have h := List.length_pos.mpr (natRepr_ne_nil s.length)
  rw [bstr]
  simp only [List.length_append, List.length_cons]
  omega

/-- The decimal form of an integer is nonempty. -/
theorem intRepr_ne_nil (z : Int) : intRepr z ≠ [] := by
  rw [intRepr]
  split
  · simp
  · exact natRepr_ne_nil _

/-- An integer encoding `i…e` is at least three bytes. -/
theorem intEnc_length_ge (z : Int) : 3 ≤ (intEnc z).length := by
  have h := List.length_pos.mpr (intRepr_ne_nil z)
  rw [intEnc]
  simp only [List.length_cons, List.length_append]
  omega

/-- A flattened list of string encodings is at least as long as the list. -/
theorem flatten_bstr_length_ge (ps : List (List Nat)) :
    ps.length ≤ ((ps.map bstr).flatten).length := by
  induction ps with
  | nil => simp
  | cons p ps ih =>
    have hb := bstr_length_ge p
    simp only [List.map_cons, List.flatten_cons, List.length_append, List.length_cons]
    omega

/-- A serialized file entry is longer than its decoder fuel share. -/
theorem serializeFile_length_ge (f : FileInfo) :
    f.path.length + 6 ≤ (serializeFile f).length := by
  have h1 := intEnc_length_ge f.length
  have h2 := flatten_bstr_length_ge f.path
  have h3 : (bstr keyLength).length = 8 := rfl
  have h4 : (bstr keyPath).length = 6 := rfl
  rw [serializeFile]
  simp only [List.length_cons, List.length_append]
  omega

/-- The fuel needed for a `files` list is covered by its serialized length. -/
theorem filesFlatten_length_ge (fs : List FileInfo) :
    filesFuel fs ≤ ((fs.map serializeFile).flatten).length + 1 := by
  induction fs with
  | nil => simp [filesFuel]
  | cons f fs ih =>
    have hf := serializeFile_length_ge f
    rw [filesFuel]
    simp only [List.map_cons, List.flatten_cons, List.length_append]
    omega

/-- A single-file serialization is long enough for fuel 6. -/
theorem serializeInfo_length_single (i : Info) (hs : isSingleFile i = true) :
    6 ≤ (serializeInfo i).length + 1 := by
  have h3 : (bstr keyLength).length = 8 := rfl
  rw [serializeInfo, if_pos hs]
  simp only [List.length_append, List.length_cons]
  omega

/-- A multi-file serialization is long enough for its fuel. -/
theorem serializeInfo_length_multi (i : Info) (hs : ¬ isSingleFile i = true) :
    filesFuel i.files + 7 ≤ (serializeInfo i).length + 1 := by
  have hf := filesFlatten_length_ge i.files
  have h3 : (bstr keyFiles).length = 7 := rfl
  rw [serializeInfo, if_neg hs]
  simp only [List.length_append, List.length_cons]
  omega

/-- C3 counterexample: a well-formed bencoded `info` dictionary whose keys
arrive in the non-canonical order `name`, `piece length`, `pieces`,
`length`.  Decoding succeeds and `newInfo` parses it, but the canonical
re-encoding (`serializeInfo`, sorted keys) is a different byte sequence and
its SHA-1 differs from the SHA-1 of the original input — so the claim's
"for every well-formed bencoded input" round-trip identity is false, and
hashing the re-encoding of this already-parsed info dictionary does not
yield the infohash of the original bytes. -/
theorem c3_counterexample :
    goDecode c3Input = some (BVal.dict c3Dict) ∧
    newInfo c3Dict = some c3Info ∧
    serializeInfo c3Info ≠ c3Input ∧
    hashPiece (serializeInfo c3Info) ≠ hashPiece c3Input := by
  refine ⟨rfl, rfl, by decide, by decide⟩

/-- C3 (amended): for inputs in canonical form — the byte sequences
`serializeInfo` produces from a well-formed `Info` (name and path
components valid UTF-8, pieces not valid UTF-8) — decoding and canonically
re-encoding is the byte identity: `goDecode` returns the info dictionary,
`newInfo` re-parses it, the re-encoding equals the original input
byte-for-byte, so its SHA-1 equals the SHA-1 of the original and
`getInfoHash` of the parsed `Info` is exactly that hash. -/
theorem c3_canonical_round_trip (i : Info) (hwf : infoWF i = true) :
    ∃ (d : List (List Nat × BVal)) (i2 : Info),
      goDecode (serializeInfo i) = some (BVal.dict d) ∧
      newInfo d = some i2 ∧
      serializeInfo i2 = serializeInfo i ∧
      hashPiece (serializeInfo i2) = hashPiece (serializeInfo i) ∧
      getInfoHash i2 = hashPiece (serializeInfo i) := by
  obtain ⟨ilen, iname, ipl, ipieces, ifiles⟩ := i
  simp only [infoWF, Bool.and_eq_true, Bool.not_eq_true', List.all_eq_true] at hwf
  obtain ⟨⟨hname, hpieces⟩, hpaths⟩ := hwf
  have hpaths' : ∀ f ∈ ifiles, ∀ p ∈ f.path, validUTF8 p = true := hpaths
  by_cases hsf : ifiles = []
  · subst hsf
    refine ⟨
      [(keyLength, BVal.int ilen), (keyName, BVal.str iname),
       (keyPieceLength, BVal.int ipl), (keyPieces, BVal.bytes ipieces)],
      ⟨ilen, iname, ipl, ipieces, []⟩, ?_, ?_, rfl, rfl, rfl⟩
    · have h := decodeS_serializeInfo_single ⟨ilen, iname, ipl, ipieces, []⟩
        0 [] rfl hname hpieces
      rw [List.append_nil] at h
      have hle := serializeInfo_length_single ⟨ilen, iname, ipl, ipieces, []⟩
        (by simp [isSingleFile])
      have hg := decodeS_mono 6 _ hle _ _ h
      rw [goDecode, hg]
      rfl
    · exact newInfo_single ilen iname ipl ipieces
  · have hns2 : ¬ (isSingleFile
        (⟨sumFileLengths ifiles, iname, ipl, ipieces, ifiles⟩ : Info) = true) := by
      simp [isSingleFile]
      exact hsf
    have hns1 : ¬ (isSingleFile (⟨ilen, iname, ipl, ipieces, ifiles⟩ : Info) = true) := by
      simp [isSingleFile]
      exact hsf
    have hser : serializeInfo (⟨sumFileLengths ifiles, iname, ipl, ipieces, ifiles⟩ : Info)
        = serializeInfo (⟨ilen, iname, ipl, ipieces, ifiles⟩ : Info) := by
      rw [serializeInfo, if_neg hns2, serializeInfo, if_neg hns1]
    refine ⟨
      [(keyFiles, BVal.list (ifiles.map fileVal)), (keyName, BVal.str iname),
       (keyPieceLength, BVal.int ipl), (keyPieces, BVal.bytes ipieces)],
      ⟨sumFileLengths ifiles, iname, ipl, ipieces, ifiles⟩,
      ?_, ?_, hser, by rw [hser], ?_⟩
    · have h := decodeS_serializeInfo_multi ⟨ilen, iname, ipl, ipieces, ifiles⟩
        0 [] hsf hname hpieces hpaths'
      rw [List.append_nil] at h
      simp only [Nat.zero_add] at h
      have hle := serializeInfo_length_multi ⟨ilen, iname, ipl, ipieces, ifiles⟩ hns1
      have hg := decodeS_mono _ _ hle _ _ h
      rw [goDecode, hg]
      rfl
    · exact newInfo_multi ifiles iname ipl ipieces
    · rw [getInfoHash, hser]

/-- C3 witness: the canonical round trip instantiated on a concrete
single-file `Info` (name `x`, one non-UTF-8 pieces byte). -/
theorem c3_canonical_round_trip_witness :
    infoWF ⟨3, [120], 1, [255], []⟩ = true ∧
    (∃ (d : List (List Nat × BVal)) (i2 : Info),
      goDecode (serializeInfo ⟨3, [120], 1, [255], []⟩) = some (BVal.dict d) ∧
      newInfo d = some i2 ∧
      serializeInfo i2 = serializeInfo ⟨3, [120], 1, [255], []⟩ ∧
      hashPiece (serializeInfo i2)
        = hashPiece (serializeInfo ⟨3, [120], 1, [255], []⟩) ∧
      getInfoHash i2 = hashPiece (serializeInfo ⟨3, [120], 1, [255], []⟩)) :=
  ⟨by decide, c3_canonical_round_trip ⟨3, [120], 1, [255], []⟩ (by decide)⟩

end BT
